import Mathlib

/-!
Verification development for the SocialRobotics dialogue-orchestration core.

Python strings are modelled as `List Char` (`Str`).  String primitives
(`strip`, `lower`, `split`, whitespace) are modelled on the ASCII fragment
of Python's Unicode-aware definitions; all inputs exercised by the
development are ASCII, where the two coincide.  Machine floats appearing
in `difflib` ratios and match thresholds are modelled as exact rationals;
at the boundary values used here (3/5, 59/100) rounding of IEEE doubles
does not change any comparison.  Network calls, real time and actuation
are external collaborators: stream contents, deadline outcomes and the
JSON decoder are inputs to the model, and actuation calls are recorded as
trace events.
-/

namespace SocialRobotics

/-- Python strings, modelled as lists of characters. -/
abbrev Str := List Char

/-- Convert a Lean string literal to the model's string type. -/
def str (s : String) : Str := s.data

/-- ASCII fragment of Python's default whitespace set
(`str.split` / `str.strip` / regex `\s`). -/
def py_is_space (c : Char) : Bool :=
  c = ' ' || c = '\t' || c = '\n' || c = '\r' || c = Char.ofNat 11 || c = Char.ofNat 12

/-- Drop trailing characters satisfying `p` (via reversal). -/
def drop_trailing (p : Char → Bool) (s : Str) : Str :=
  (s.reverse.dropWhile p).reverse

/-- Python `str.strip()` (ASCII whitespace): drop leading and trailing whitespace. -/
def py_strip (s : Str) : Str :=
  drop_trailing py_is_space (s.dropWhile py_is_space)

/-- Python `str.strip(chars)` for an explicit character set. -/
def py_strip_chars (set : List Char) (s : Str) : Str :=
  drop_trailing (fun c => set.contains c) (s.dropWhile (fun c => set.contains c))

/-- Python `str.lower()` (ASCII fragment). -/
def py_lower (s : Str) : Str := s.map Char.toLower

/-- Accumulator-based worker for `py_split`; the current word is built reversed. -/
def py_split_aux : Str → Str → List Str
  | w, [] => if w = [] then [] else [w.reverse]
  | w, c :: rest =>
    if py_is_space c then
      if w = [] then py_split_aux [] rest else w.reverse :: py_split_aux [] rest
    else py_split_aux (c :: w) rest

/-- Python `str.split()` with no argument: split on whitespace runs,
dropping empty pieces. -/
def py_split (s : Str) : List Str := py_split_aux [] s

/-- Python `" ".join(parts)`. -/
def join_sp : List Str → Str
  | [] => []
  | [x] => x
  | x :: rest => x ++ ' ' :: join_sp rest

/-- Replace every maximal run of characters satisfying `p` by a single space
(the effect of `re.sub(r"<class>+", " ", s)`).  The `in_run` flag records
whether the previous character was part of a run. -/
def replace_runs_aux (p : Char → Bool) : Bool → Str → Str
  | _, [] => []
  | in_run, c :: rest =>
    if p c then
      if in_run then replace_runs_aux p true rest
      else ' ' :: replace_runs_aux p true rest
    else c :: replace_runs_aux p false rest

/-- Replace each maximal `p`-run with one space. -/
def replace_runs (p : Char → Bool) (s : Str) : Str := replace_runs_aux p false s

/-- ASCII fragment of Python's regex `\w` (Unicode letters, digits, underscore). -/
def is_word_char (c : Char) : Bool := c.isAlphanum || c = '_'

/-- Value of a string of decimal digits (`int(...)` on a digit run). -/
def nat_of_digits (s : Str) : Nat :=
  s.foldl (fun n c => 10 * n + (c.toNat - '0'.toNat)) 0

/-- Does `pat` occur as an initial segment of `s`? -/
def starts_with : Str → Str → Bool
  | [], _ => true
  | _ :: _, [] => false
  | p :: ps, c :: cs => p = c && starts_with ps cs

/-- First value stored under key `k` in an association list
(Python `dict` lookup; keys are unique in every dict we build). -/
def dict_get {β : Type} : List (Str × β) → Str → Option β
  | [], _ => none
  | (k', v) :: rest, k => if k' = k then some v else dict_get rest k

/-- Python `d[k] = v`: replace the value in place when the key exists,
otherwise append the new binding (insertion order is preserved). -/
def dict_insert {β : Type} (k : Str) (v : β) : List (Str × β) → List (Str × β)
  | [] => [(k, v)]
  | (k', v') :: rest =>
    if k' = k then (k', v) :: rest else (k', v') :: dict_insert k v rest

/-! ### SentenceStream (`src/utils/streamer.py`) -/

/-- Is `c` one of the sentence-terminal characters `".?!"`? -/
def is_terminal (c : Char) : Bool := c = '.' || c = '?' || c = '!'

/-- Worker for `_pop_ready_clauses`: `piece` is the text accumulated since the
last cut (Python's `text[start:idx]`), the second argument the unscanned text.
Returns the emitted clauses and the untrimmed remainder. -/
def pop_ready_aux : Str → Str → List Str × Str
  | piece, [] => ([], piece)
  | piece, c :: rest =>
    if is_terminal c then
      let clause := py_strip (piece ++ [c])
      let r := pop_ready_aux [] rest
      (if clause = [] then r.1 else clause :: r.1, r.2)
    else pop_ready_aux (piece ++ [c]) rest

/-- `ChatGPTSentenceStreamer._pop_ready_clauses`: cut the buffer at every
sentence-terminal character, trim each piece, emit it iff non-empty, and
return the untrimmed remainder. -/
def pop_ready_clauses (text : Str) : List Str × Str := pop_ready_aux [] text

/-- `ChatGPTSentenceStreamer._generate_clauses`: feed fragments one by one into
the buffer, emitting ready clauses as they complete; `word_count` is recomputed
after every fragment as the number of whitespace-separated tokens in the
current buffer.  After the feed ends the trimmed remainder is emitted iff
non-empty.  Returns the clause sequence and the final word count. -/
def generate_clauses_aux : Str → Nat → List Str → List Str × Nat
  | buffer, wc, [] =>
    (if py_strip buffer = [] then [] else [py_strip buffer], wc)
  | buffer, _, tok :: rest =>
    let buf := buffer ++ tok
    let wc' := (py_split buf).length
    let pr := pop_ready_clauses buf
    let r := generate_clauses_aux pr.2 wc' rest
    (pr.1 ++ r.1, r.2)

/-- Clause sequence produced by the streamer on a fragment feed. -/
def generate_clauses (fragments : List Str) : List Str :=
  (generate_clauses_aux [] 0 fragments).1

/-! ### `difflib.SequenceMatcher` (Python stdlib, used by `TrialMemory`)

`TrialMemory._best_fuzzy_match` computes
`SequenceMatcher(None, a, b).ratio()`.  The stdlib algorithm is modelled
here: `b2j` maps each character of `b` to its ascending positions,
`find_longest_match` is the dictionary-based longest-block search with
first-occurrence tie-breaking, and the ratio is `2*M/(|a|+|b|)` where `M`
totals the recursively matched blocks.  All strings in this repository are
shorter than 200 characters, so the stdlib's autojunk heuristic never
fires and the junk sets are empty; the junk-extension loops are therefore
omitted (their guards are always false). -/

/-- Append position `j` to the entry of `c` in the `b2j` map
(`b2j.setdefault(c, []).append(j)`). -/
def b2j_insert (c : Char) (j : Nat) : List (Char × List Nat) → List (Char × List Nat)
  | [] => [(c, [j])]
  | (c', js) :: rest =>
    if c' = c then (c', js ++ [j]) :: rest else (c', js) :: b2j_insert c j rest

/-- Positions of every character of `b`, in ascending order. -/
def b2j (b : Str) : List (Char × List Nat) :=
  (b.enum.foldl (fun m p => b2j_insert p.2 p.1 m) [])

/-- Lookup in the `b2j` map (`b2j.get(c, [])` uses `[]` when absent). -/
def b2j_lookup : List (Char × List Nat) → Char → Option (List Nat)
  | [], _ => none
  | (c', js) :: rest, c => if c' = c then some js else b2j_lookup rest c

/-- Lookup in a `Nat`-keyed dictionary (the `j2len` rows). -/
def ndict_get : List (Nat × Nat) → Nat → Option Nat
  | [], _ => none
  | (k', v) :: rest, k => if k' = k then some v else ndict_get rest k

/-- Insert into a `Nat`-keyed dictionary. -/
def ndict_insert (k v : Nat) : List (Nat × Nat) → List (Nat × Nat)
  | [] => [(k, v)]
  | (k', v') :: rest =>
    if k' = k then (k', v) :: rest else (k', v') :: ndict_insert k v rest

/-- Inner loop of `find_longest_match`: walk the positions of `a[i]` in `b`,
skipping those below `blo` and stopping at `bhi`, extending runs recorded in
`j2len` and tracking the best block (strictly longer wins, so earliest
`(i, j)` is kept on ties).  Returns the new row and the best triple
`(besti, bestj, bestsize)`.  `j2lenget(j-1, 0)` reads the absent key `-1`
when `j = 0` and yields `0`, so the previous-row lookup is guarded at
`j = 0` (Lean's truncated subtraction would otherwise read key `0`). -/
def flm_inner (j2len : List (Nat × Nat)) (blo bhi i : Nat) :
    List Nat → List (Nat × Nat) → Nat × Nat × Nat → List (Nat × Nat) × (Nat × Nat × Nat)
  | [], newj2len, best => (newj2len, best)
  | j :: rest, newj2len, best =>
    if j < blo then flm_inner j2len blo bhi i rest newj2len best
    else if bhi ≤ j then (newj2len, best)
    else
      let k := (if j = 0 then 0 else (ndict_get j2len (j - 1)).getD 0) + 1
      let newj2len' := ndict_insert j k newj2len
      let best' := if best.2.2 < k then (i + 1 - k, j + 1 - k, k) else best
      flm_inner j2len blo bhi i rest newj2len' best'

/-- Outer loop of `find_longest_match` over `i ∈ [alo, ahi)`; `slice` is
`a[i:ahi]`. -/
def flm_outer (bj : List (Char × List Nat)) (blo bhi : Nat) :
    List Char → Nat → List (Nat × Nat) → Nat × Nat × Nat → Nat × Nat × Nat
  | [], _, _, best => best
  | c :: slice, i, j2len, best =>
    let js := ((b2j_lookup bj c).getD [])
    let r := flm_inner j2len blo bhi i js [] best
    flm_outer bj blo bhi slice (i + 1) r.1 r.2

/-- Character of `s` at index `i` (only consulted in bounds). -/
def str_get (s : Str) (i : Nat) : Char := s.getD i ' '

/-- The non-junk extension loop that widens the best block to the left while
the adjacent characters match (`a[besti-1] == b[bestj-1]`); with empty junk
sets this is the only extension that can apply.  Fuel is `besti`. -/
def flm_extend_left (a b : Str) (alo blo : Nat) :
    Nat → Nat × Nat × Nat → Nat × Nat × Nat
  | 0, best => best
  | fuel + 1, (besti, bestj, k) =>
    if alo < besti ∧ blo < bestj ∧ str_get a (besti - 1) = str_get b (bestj - 1) then
      flm_extend_left a b alo blo fuel (besti - 1, bestj - 1, k + 1)
    else (besti, bestj, k)

/-- The symmetric right-hand extension loop; fuel is `ahi`. -/
def flm_extend_right (a b : Str) (ahi bhi : Nat) :
    Nat → Nat × Nat × Nat → Nat × Nat × Nat
  | 0, best => best
  | fuel + 1, (besti, bestj, k) =>
    if besti + k < ahi ∧ bestj + k < bhi ∧
        str_get a (besti + k) = str_get b (bestj + k) then
      flm_extend_right a b ahi bhi fuel (besti, bestj, k + 1)
    else (besti, bestj, k)

/-- `SequenceMatcher.find_longest_match(alo, ahi, blo, bhi)` with empty junk
sets: the dictionary DP followed by the non-junk extension loops. -/
def find_longest_match (a b : Str) (alo ahi blo bhi : Nat) : Nat × Nat × Nat :=
  let bj := b2j b
  let slice := (a.drop alo).take (ahi - alo)
  let best := flm_outer bj blo bhi slice alo [] (alo, blo, 0)
  let best := flm_extend_left a b alo blo best.1 best
  flm_extend_right a b ahi bhi ahi best

/-- Total size of the matching blocks of `get_matching_blocks`, computed by
the stdlib's recursive split around each longest match.  Every recursive
interval is strictly shorter on the `a` side, so fuel `|a| + 1` suffices. -/
def match_total (a b : Str) : Nat → Nat → Nat → Nat → Nat → Nat
  | 0, _, _, _, _ => 0
  | fuel + 1, alo, ahi, blo, bhi =>
    let m := find_longest_match a b alo ahi blo bhi
    let k := m.2.2
    if k = 0 then 0
    else
      k + match_total a b fuel alo m.1 blo m.2.1 +
        match_total a b fuel (m.1 + k) ahi (m.2.1 + k) bhi

/-- Non-negative rational value, kept as an explicit numerator/denominator
pair so that every comparison is plain natural-number arithmetic.  The
floats of the source (`ratio()` results, `match_threshold`) are modelled by
these exact values; at the fractions exercised here (3/5, 59/100, small
`2M/T`) IEEE rounding does not change any comparison made by the code. -/
structure Frac where
  num : Nat
  den : Nat
deriving DecidableEq

/-- Value order on fractions: `a < b` as rationals, by cross-multiplication. -/
def frac_lt (a b : Frac) : Prop := a.num * b.den < b.num * a.den

/-- Value order on fractions: `a ≤ b` as rationals, by cross-multiplication. -/
def frac_le (a b : Frac) : Prop := a.num * b.den ≤ b.num * a.den

instance (a b : Frac) : Decidable (frac_lt a b) := by unfold frac_lt; infer_instance

instance (a b : Frac) : Decidable (frac_le a b) := by unfold frac_le; infer_instance

/-- `SequenceMatcher(None, a, b).ratio()`: `2*M/T` where `M` is the total
matched size and `T = |a| + |b|`; `1` when both strings are empty
(`difflib._calculate_ratio`). -/
def similarity_score (a b : Str) : Frac :=
  let m := match_total a b (a.length + 1) 0 a.length 0 b.length
  if a.length + b.length = 0 then ⟨1, 1⟩
  else ⟨2 * m, a.length + b.length⟩

/-! ### TrialMemory (`src/utils/trial_memory.py`)

JSON payloads are modelled with the typed fields the code reads; a missing
key is `none` / the empty string, mirroring the `entry.get(...)` defaults.
A controller decision dict is modelled by the fields the orchestrator and
the memory consult (`need_thinking`, `confidence`, `thinking_notes`,
`reasoning_hint`, `answer`); the empty decision dict of the legacy branch
of `_normalize_record` is conflated with an absent one. -/

/-- The decision payload parsed from the controller response. -/
structure Decision where
  need_thinking : Option Bool
  confidence : Option Str
  thinking_notes : Option (List Str)
  reasoning_hint : Option Str
  answer : Option Str
deriving DecidableEq

/-- A raw trial-store entry as read from the serialized document. -/
structure Entry where
  question : Str
  answer : Str
  thinking_cues : List Str
  decision : Option Decision
  need_thinking : Option Bool
  confidence : Option Str
  final_confidence : Str
deriving DecidableEq

/-- A normalized trial record (`TrialMemory._normalize_record` output). -/
structure Record where
  question : Str
  answer : Str
  thinking_cues : List Str
  decision : Decision
  final_confidence : Str
deriving DecidableEq

/-- `_normalize_text`: lowercase, replace every non-word run by one space,
collapse whitespace, trim. -/
def normalize_text (text : Str) : Str :=
  py_strip (replace_runs py_is_space
    (replace_runs (fun c => !is_word_char c) (py_lower text)))

/-- `TrialMemory._normalize_record`: require a non-empty stripped question,
strip the answer, keep trimmed non-empty cues, fall back to legacy top-level
hints when the decision dict is absent, and resolve `final_confidence` from
the decision's confidence when the stored one is blank. -/
def normalize_record (e : Entry) : Option Record :=
  let question := py_strip e.question
  if question = [] then none
  else
    let decision :=
      match e.decision with
      | some d => d
      | none =>
        { need_thinking := e.need_thinking, confidence := e.confidence,
          thinking_notes := none, reasoning_hint := none, answer := none }
    let final0 := py_strip e.final_confidence
    let final :=
      if final0 = [] then
        match decision.confidence with
        | some raw => py_strip raw
        | none => []
      else final0
    some
      { question := question, answer := py_strip e.answer,
        thinking_cues := (e.thinking_cues.map py_strip).filter (· ≠ []),
        decision := decision, final_confidence := final }

/-- `TrialMemory` in-memory state: the record dict keyed by the (stripped)
question, the normalized-key index, the file-order question list used for
aliases, and the match threshold (float `0.6` by default, modelled `3/5`). -/
structure TrialMemory where
  records : List (Str × Record)
  norm_index : List (Str × Str)
  ordered_questions : List Str
  match_threshold : Frac

/-- `TrialMemory._reindex`: rebuild the normalized index from the record
dict in insertion order, skipping keys that normalize to the empty string;
on collisions the later question wins the value while the first occurrence
keeps the position (Python dict update). -/
def reindex (records : List (Str × Record)) : List (Str × Str) :=
  records.foldl
    (fun idx p =>
      let norm := normalize_text p.1
      if norm = [] then idx else dict_insert norm p.1 idx)
    []

/-- The list-shaped branch of `TrialMemory._load`: upsert each entry into the
record dict and append its question to the file-order list (duplicates
included), then reindex.  File-system failure modes are out of scope. -/
def load_list (entries : List Entry) : TrialMemory :=
  let step := fun (acc : List (Str × Record) × List Str) (e : Entry) =>
    match normalize_record e with
    | none => acc
    | some r => (dict_insert r.question r acc.1, acc.2 ++ [r.question])
  let loaded := entries.foldl step ([], [])
  { records := loaded.1, norm_index := reindex loaded.1,
    ordered_questions := loaded.2, match_threshold := ⟨3, 5⟩ }

/-- The index parsed by the anchored regex
`q(uestion)?\s*0*([0-9]+)` of `_resolve_index_alias` (a prefix match, as
`re.match` anchors only at the start).  After the optional `uestion` group
and optional whitespace, `0*([0-9]+)` captures a digit run whose integer
value is unchanged by the leading zeros the `0*` consumes, so the result is
the value of the whole digit run.  Backtracking over the optional group is
resolved as the regex engine does: with the group if the digit part then
matches, otherwise without it. -/
def alias_digit_part (s : Str) : Option Nat :=
  let s1 := s.dropWhile py_is_space
  let ds := s1.takeWhile Char.isDigit
  if ds = [] then none else some (nat_of_digits ds)

/-- Index denoted by an alias (`None` when the regex does not match). -/
def alias_index : Str → Option Nat
  | 'q' :: rest =>
    if starts_with (str "uestion") rest then
      match alias_digit_part (rest.drop 7) with
      | some n => some n
      | none => alias_digit_part rest
    else alias_digit_part rest
  | _ => none

/-- `TrialMemory._resolve_index_alias`: lowercase and strip the input, parse
the alias, and resolve it 1-based into the file-order question list;
indices ≤ 0 or beyond the list miss. -/
def resolve_index_alias (m : TrialMemory) (text : Str) : Option Str :=
  match alias_index (py_strip (py_lower text)) with
  | none => none
  | some idx =>
    if idx = 0 ∨ m.ordered_questions.length < idx then none
    else m.ordered_questions[idx - 1]?

/-- The scan of `_best_fuzzy_match` over `_norm_index.items()`: keep the
candidate whose score strictly exceeds the best so far (so the first
occurrence wins ties), starting from `(None, 0.0)`. -/
def best_loop (nq : Str) : List (Str × Str) → Option Str × Frac → Option Str × Frac
  | [], acc => acc
  | (nc, oq) :: rest, (bq, bs) =>
    let score := similarity_score nq nc
    if frac_lt bs score then best_loop nq rest (some oq, score)
    else best_loop nq rest (bq, bs)

/-- `TrialMemory._best_fuzzy_match`: return the best-scoring stored question
when its score reaches the threshold, `None` otherwise. -/
def best_fuzzy_match (m : TrialMemory) (nq : Str) : Option (Str × Frac) :=
  match best_loop nq m.norm_index (none, ⟨0, 1⟩) with
  | (none, _) => none
  | (some q, s) => if frac_le m.match_threshold s then some (q, s) else none

/-- The alias stage of `TrialMemory.get`: resolve the index alias and fetch
its record. -/
def get_alias_result (m : TrialMemory) (key : Str) : Option Record :=
  match resolve_index_alias m key with
  | some aq => dict_get m.records aq
  | none => none

/-- The exact stage of `TrialMemory.get`: hit the normalized index and fetch
the original question's record. -/
def get_exact_result (m : TrialMemory) (norm : Str) : Option Record :=
  match dict_get m.norm_index norm with
  | some original => dict_get m.records original
  | none => none

/-- The fuzzy stage of `TrialMemory.get`. -/
def get_fuzzy_result (m : TrialMemory) (norm : Str) : Option Record :=
  match best_fuzzy_match m norm with
  | some (matched, _) => dict_get m.records matched
  | none => none

/-- `TrialMemory.get`: strip the input, then try the index alias, the exact
normalized match, and finally the fuzzy match, returning the first stored
record found (the deep copy of the source is the identity here). -/
def TrialMemory.get (m : TrialMemory) (question : Str) : Option Record :=
  let key := py_strip question
  if key = [] then none
  else
    match get_alias_result m key with
    | some r => some r
    | none =>
      let norm := normalize_text key
      if norm = [] then none
      else
        match get_exact_result m norm with
        | some r => some r
        | none => get_fuzzy_result m norm

/-- `TrialMemory.save_record`: normalize the record, upsert it into the
record dict under its (stripped) question, and reindex.  The file-order
question list is not touched, and the disk rewrite is out of scope. -/
def save_record (m : TrialMemory) (record : Entry) : TrialMemory :=
  match normalize_record record with
  | none => m
  | some r =>
    let records := dict_insert r.question r m.records
    { m with records := records, norm_index := reindex records }

/-! ### BehaviorGenerator (`src/plan/behavior_generator.py`) -/

/-- `BehaviorGenerator.CONFIDENCE_BEHAVIORS`: confidence tier to
(verbal prefix, base gesture, expression). -/
def CONFIDENCE_BEHAVIORS : List (Str × (Str × Str × Str)) :=
  [(str "low", (str "I\x27m not entirely sure, but", str "slight head shake", str "Oh")),
   (str "medium", (str "Let me think", str "look straight", str "Thoughtful")),
   (str "high", (str "I\x27m confident that", str "nod head", str "BigSmile"))]

/-- Python `confidence in CONFIDENCE_BEHAVIORS` (dict key membership). -/
def confidence_known (c : Str) : Bool :=
  (dict_get CONFIDENCE_BEHAVIORS c).isSome

/-- `BehaviorGenerator._estimate_confidence_from_words`: longer replies imply
higher confidence. -/
def estimate_confidence_from_words (word_count : Nat) : Str :=
  if word_count < 25 then str "low"
  else if word_count < 60 then str "medium"
  else str "high"

/-- `BehaviorGenerator.resolve_confidence`: use the stripped, lowercased hint
when it is a known tier and the hint is truthy, else fall back to the
word-count heuristic. -/
def resolve_confidence (hint : Option Str) (word_count : Nat) : Str :=
  match hint with
  | some h =>
    if h ≠ [] ∧ confidence_known (py_lower (py_strip h)) then py_lower (py_strip h)
    else estimate_confidence_from_words word_count
  | none => estimate_confidence_from_words word_count

/-! ### Orchestrator (`src/plan/orchestrator.py`)

The orchestrator's observable actions are modelled as a trace of events:
`speak` records a `request_speak_text` call on the Furhat client, tagged
by its call site; `performBehavior` records one
`perform_thinking_behavior` dispatch (the behavior generator's gesture /
expression / scripted-utterance internals are actuation, below this
abstraction); `sleep` records an `asyncio.sleep`; `barrierSet` /
`barrierWait` record setting and returning from a wait on the
`thinking_window_done` event.  Real time is an oracle: each
`loop.time() >= deadline` test in the thinking relay consults `time_up`
at a fresh index, and the `elapsed < min_duration` tests are the boolean
inputs `min_shortfall` / `replay_min_shortfall`; the positivity test on
`DIRECT_RESPONSE_DELAY_SECONDS` is the boolean `delay_pos`.  The two
concurrent tasks of a thinking run may interleave arbitrarily subject to
the barrier discipline (`Interleave` + `barrier_ok`). -/

/-- Which call site issued a `request_speak_text` call. -/
inductive SpeakSource
  | answerRelay
  | direct
  | replay
deriving DecidableEq

/-- Observable orchestrator actions. -/
inductive Event
  | speak (src : SpeakSource) (text : Str)
  | performBehavior (idx : Nat)
  | sleep
  | barrierSet
  | barrierWait
deriving DecidableEq

/-- `PERSIST_TRIALS` module constant: auto-recording is disabled
("Do not auto-record; rely on fixed my_trials.json"). -/
def PERSIST_TRIALS : Bool := false

/-- The follow-up line appended after every freshly generated answer. -/
def FOLLOW_UP_TAIL : Str := str "Do you have another question?"

/-- The closing line used when the user has no more questions. -/
def CLOSE_TAIL : Str := str "Thanks for chatting. That\x27s all for today."

/-- Fallback answer of `_respond_directly` when the decision's answer is
blank. -/
def FALLBACK_ANSWER : Str :=
  str "I\x27m sorry, I can\x27t provide an answer at the moment."

/-- `Orchestrator._append_follow_up`: `f"{answer} {tail}".strip()` with the
tail chosen by `user_has_more` (the orchestrator always passes `None`). -/
def append_follow_up (answer : Str) (user_has_more : Option Bool) : Str :=
  let tail := if user_has_more = some false then CLOSE_TAIL else FOLLOW_UP_TAIL
  py_strip (answer ++ ' ' :: tail)

/-- `normalize_thinking_notes` on the typed decision payload: keep truthy
items of a list, else no notes.  (The string branch of the source is
unreachable for a typed `thinking_notes` list.) -/
def normalize_thinking_notes (notes : Option (List Str)) : List Str :=
  match notes with
  | some l => l.filter (· ≠ [])
  | none => []

/-- The character set of `stripped.strip(".!?â€¦")` in
`_is_meaningful_thinking_cue`; the source file carries a mojibake ellipsis,
so the set is `.`, `!`, `?`, U+00E2, U+20AC, U+00A6. -/
def MEANINGFUL_STRIP_SET : List Char :=
  ['.', '!', '?', Char.ofNat 0xE2, Char.ofNat 0x20AC, Char.ofNat 0xA6]

/-- `_is_meaningful_thinking_cue`: non-empty after stripping whitespace and
terminal punctuation. -/
def is_meaningful_thinking_cue (text : Str) : Bool :=
  py_strip_chars MEANINGFUL_STRIP_SET (py_strip text) ≠ []

/-- Time oracle and cue bound for the thinking relay. -/
structure ThinkCfg where
  time_up : Nat → Bool
  max_cues : Nat

/-- Output of one relay loop: its events, the cues recorded in
`thinking_cues_emitted`, and the updated `emitted` counter and time-check
index. -/
structure RelayOut where
  events : List Event
  cues : List Str
  emitted : Nat
  checks : Nat

/-- The controller-notes loop of `_relay_thinking`: stop when the deadline
or the cue bound is hit (checked before and again after each emission),
skip blank notes, record the stripped note, dispatch one behavior per cue,
and pause between cues. -/
def relay_notes (tc : ThinkCfg) : List Str → Nat → Nat → RelayOut
  | [], emitted, k => ⟨[], [], emitted, k⟩
  | note :: rest, emitted, k =>
    if tc.time_up k ∨ tc.max_cues ≤ emitted then ⟨[], [], emitted, k + 1⟩
    else
      let cleaned := py_strip note
      if cleaned = [] then relay_notes tc rest emitted (k + 1)
      else if tc.time_up (k + 1) ∨ tc.max_cues ≤ emitted + 1 then
        ⟨[.performBehavior emitted], [cleaned], emitted + 1, k + 2⟩
      else
        let r := relay_notes tc rest (emitted + 1) (k + 2)
        ⟨.performBehavior emitted :: .sleep :: r.events, cleaned :: r.cues,
          r.emitted, r.checks⟩

/-- The streamed-cues loop of `_relay_thinking`: as `relay_notes`, but cues
are filtered by `_is_meaningful_thinking_cue` and recorded unstripped. -/
def relay_cues (tc : ThinkCfg) : List Str → Nat → Nat → RelayOut
  | [], emitted, k => ⟨[], [], emitted, k⟩
  | cue :: rest, emitted, k =>
    if tc.time_up k ∨ tc.max_cues ≤ emitted then ⟨[], [], emitted, k + 1⟩
    else if ¬ is_meaningful_thinking_cue cue then relay_cues tc rest emitted (k + 1)
    else if tc.time_up (k + 1) ∨ tc.max_cues ≤ emitted + 1 then
      ⟨[.performBehavior emitted], [cue], emitted + 1, k + 2⟩
    else
      let r := relay_cues tc rest (emitted + 1) (k + 2)
      ⟨.performBehavior emitted :: .sleep :: r.events, cue :: r.cues,
        r.emitted, r.checks⟩

/-- `Orchestrator._relay_thinking`: notes first, then streamed cues; the
`finally` block sleeps out the minimum-duration floor when needed and then
signals the completion barrier.  Returns the events and the cues emitted. -/
def thinking_phase (tc : ThinkCfg) (notes cues : List Str)
    (min_shortfall : Bool) : List Event × List Str :=
  let rn := relay_notes tc notes 0 0
  let rc := relay_cues tc cues rn.emitted rn.checks
  (rn.events ++ rc.events ++ (if min_shortfall then [.sleep] else []) ++
      [.barrierSet],
    rn.cues ++ rc.cues)

/-- The single combined utterance of `_relay_answer`:
`self._append_follow_up(" ".join(full_answer_parts).strip())`. -/
def relay_answer_text (clauses : List Str) : Str :=
  append_follow_up (py_strip (join_sp clauses)) none

/-- `Orchestrator._relay_answer`: on the first clause wait on the thinking
barrier; accumulate all clauses; after the stream ends send one combined
utterance (only if any clause arrived, and only with a Furhat client). -/
def relay_answer_events (clauses : List Str) (furhat : Bool) : List Event :=
  if clauses = [] then []
  else
    Event.barrierWait ::
      (if furhat then [Event.speak .answerRelay (relay_answer_text clauses)] else [])

/-- The answer spoken by `_respond_directly` before the follow-up line:
the decision's stripped answer, or the fallback when blank. -/
def direct_answer (d : Decision) : Str :=
  let a := py_strip (d.answer.getD [])
  if a = [] then FALLBACK_ANSWER else a

/-- The full utterance of `_respond_directly`. -/
def direct_text (d : Decision) : Str :=
  append_follow_up (py_strip (direct_answer d)) none

/-- `Orchestrator._respond_directly`: optional configured delay, then a
single utterance (confidence bookkeeping is state, not trace). -/
def respond_directly_events (d : Decision) (delay_pos furhat : Bool) : List Event :=
  (if delay_pos then [Event.sleep] else []) ++
    (if furhat then [Event.speak .direct (direct_text d)] else [])

/-- The replay loop over stored cues: one behavior dispatch per cue, with a
pause between consecutive cues. -/
def replay_cue_events : Nat → List Str → List Event
  | _, [] => []
  | idx, _ :: rest =>
    Event.performBehavior idx ::
      (if rest = [] then [] else Event.sleep :: replay_cue_events (idx + 1) rest)

/-- The stored cues replayed by `_replay_cached_trial` (trimmed, non-empty). -/
def replay_cues_of (record : Record) : List Str :=
  (record.thinking_cues.map py_strip).filter (· ≠ [])

/-- `bool(self.decision.get("need_thinking", bool(thinking_cues))) and not
skip_thinking` in `_replay_cached_trial`. -/
def replay_need_thinking (record : Record) (skip_thinking : Bool) : Bool :=
  (record.decision.need_thinking.getD (!(replay_cues_of record).isEmpty)) &&
    !skip_thinking

/-- The stored answer spoken by the replay (if a client is present). -/
def replay_speak_part (record : Record) (furhat : Bool) : List Event :=
  if furhat then [Event.speak .replay (py_strip record.answer)] else []

/-- `Orchestrator._replay_cached_trial`: replay stored thinking cues when the
stored decision asks for thinking (default: cues present) and replay
thinking is not skipped, pad to the minimum duration, signal the barrier,
then speak the stored answer verbatim (stripped), with no follow-up. -/
def replay_events (record : Record) (skip_thinking replay_min_shortfall
    delay_pos furhat : Bool) : List Event :=
  if replay_need_thinking record skip_thinking &&
      !(replay_cues_of record).isEmpty then
    replay_cue_events 0 (replay_cues_of record) ++
      (if replay_min_shortfall then [Event.sleep] else []) ++
      Event.barrierSet :: replay_speak_part record furhat
  else
    (if delay_pos then [Event.sleep] else []) ++
      Event.barrierSet :: replay_speak_part record furhat

/-! ### Controller parse step (`src/plan/controller.py`) -/

/-- `ControllerModel._parse_json`, parameterized by the stdlib JSON decoder
`loads` (an external collaborator returning the decision payload on
success): strip the content, peel a leading markdown fence by stripping
every backtick from both ends and a case-insensitive `json` tag, then
decode; `None` models the `JSONDecodeError` that `decide` re-raises as the
decision-parse failure. -/
def parse_json (loads : Str → Option Decision) (text : Str) : Option Decision :=
  let candidate := py_strip text
  let candidate :=
    if starts_with (str "```") candidate then
      let c := py_strip_chars ['`'] candidate
      if starts_with (str "json") (py_lower c) then c.drop 4 else c
    else candidate
  loads candidate

/-- Outcome of `ControllerModel.decide` as seen by `Orchestrator.run`: a
parsed decision or the decision-parse error. -/
def decide_outcome (loads : Str → Option Decision) (content : Str) :
    Except Unit Decision :=
  match parse_json loads content with
  | some d => Except.ok d
  | none => Except.error ()

/-! ### Concurrency model -/

/-- `zs` is an order-preserving interleaving of `xs` and `ys` (the possible
instruction orders of two cooperatively scheduled tasks). -/
inductive Interleave : List Event → List Event → List Event → Prop
  | nil : Interleave [] [] []
  | left {xs ys zs x} : Interleave xs ys zs → Interleave (x :: xs) ys (x :: zs)
  | right {xs ys zs y} : Interleave xs ys zs → Interleave xs (y :: ys) (y :: zs)

/-- Barrier discipline: a `barrierWait` may only complete after a
`barrierSet` has occurred (`seen` records whether the event is already
set). -/
def barrier_ok (seen : Bool) : List Event → Bool
  | [] => true
  | Event.barrierWait :: rest => seen && barrier_ok seen rest
  | Event.barrierSet :: rest => barrier_ok true rest
  | _ :: rest => barrier_ok seen rest

/-! ### `Orchestrator.run` -/

/-- Inputs of one `Orchestrator.run` call: constructor arguments, the
decision outcome, the contents the two generation streams would deliver,
presence of the Furhat client, and the time oracles. -/
structure RunInputs where
  question : Str
  memory : TrialMemory
  use_trial_memory : Bool
  replay_only : Bool
  skip_replay_thinking : Bool
  decide_result : Except Unit Decision
  thinking_stream : List Str
  answer_clauses : List Str
  answer_word_count : Nat
  furhat : Bool
  tcfg : ThinkCfg
  min_shortfall : Bool
  replay_min_shortfall : Bool
  delay_pos : Bool

/-- The cached record consulted at the top of `run`. -/
def cached_of (inp : RunInputs) : Option Record :=
  if inp.use_trial_memory then inp.memory.get inp.question else none

/-- `skip_replay_thinking or replay_only` (constructor line). -/
def skip_thinking_of (inp : RunInputs) : Bool :=
  inp.skip_replay_thinking || inp.replay_only

/-- Which branch a run takes. -/
inductive RunMode
  | replayed
  | parseFailed
  | direct
  | thinking
deriving DecidableEq

/-- Branch taken by `run` on the given inputs. -/
def run_mode (inp : RunInputs) : RunMode :=
  match cached_of inp with
  | some _ => .replayed
  | none =>
    match inp.decide_result with
    | .error _ => .parseFailed
    | .ok d => if d.need_thinking.getD false then .thinking else .direct

/-- Thinking-task event list for a thinking run on decision `d`. -/
def thinking_task_events (inp : RunInputs) (d : Decision) : List Event :=
  (thinking_phase inp.tcfg (normalize_thinking_notes d.thinking_notes)
      inp.thinking_stream inp.min_shortfall).1

/-- The traces `Orchestrator.run` can produce.  The replay, parse-failure
and direct branches are sequential; a thinking run produces any
interleaving of the two tasks that respects the completion barrier. -/
def RunTrace (inp : RunInputs) (t : List Event) : Prop :=
  match cached_of inp with
  | some record =>
    t = replay_events record (skip_thinking_of inp) inp.replay_min_shortfall
      inp.delay_pos inp.furhat
  | none =>
    match inp.decide_result with
    | .error _ => t = []
    | .ok d =>
      if d.need_thinking.getD false then
        Interleave (thinking_task_events inp d)
            (relay_answer_events inp.answer_clauses inp.furhat) t ∧
          barrier_ok false t = true
      else t = Event.barrierSet :: respond_directly_events d inp.delay_pos inp.furhat

/-- `current_answer_text` at the end of the run (the empty string when no
utterance was assembled). -/
def run_answer_text (inp : RunInputs) : Str :=
  match cached_of inp with
  | some record => py_strip record.answer
  | none =>
    match inp.decide_result with
    | .error _ => []
    | .ok d =>
      if d.need_thinking.getD false then
        if inp.answer_clauses = [] then []
        else relay_answer_text inp.answer_clauses
      else direct_text d

/-- `resolved_confidence` at the end of the run (empty when never set). -/
def run_resolved_confidence (inp : RunInputs) : Str :=
  match cached_of inp with
  | some record =>
    let fc := py_strip record.final_confidence
    let fc :=
      if fc = [] then
        match record.decision.confidence with
        | some raw => py_strip raw
        | none => []
      else fc
    if confidence_known fc then fc else str "medium"
  | none =>
    match inp.decide_result with
    | .error _ => []
    | .ok d =>
      if d.need_thinking.getD false then
        if inp.answer_clauses = [] then []
        else resolve_confidence d.confidence inp.answer_word_count
      else
        if (match d.confidence with
            | some c => confidence_known c
            | none => false) then d.confidence.getD [] else str "medium"

/-- `Orchestrator._persist_trial_record`: gated by the module constant
`PERSIST_TRIALS`, the `use_trial_memory` flag and a non-empty answer;
when all hold, save the run's record to the trial memory. -/
def persist_trial_record (inp : RunInputs) (cues : List Str) (d : Decision)
    (m : TrialMemory) : TrialMemory :=
  if (PERSIST_TRIALS && inp.use_trial_memory) = false then m
  else if run_answer_text inp = [] then m
  else
    save_record m
      { question := inp.question, answer := run_answer_text inp,
        thinking_cues := cues, decision := some d,
        need_thinking := none, confidence := none,
        final_confidence := run_resolved_confidence inp }

/-- Trial-memory state when `run` returns: the replay and parse-failure
branches never reach `_persist_trial_record`; the direct and thinking
branches call it. -/
def run_final_memory (inp : RunInputs) : TrialMemory :=
  match cached_of inp with
  | some _ => inp.memory
  | none =>
    match inp.decide_result with
    | .error _ => inp.memory
    | .ok d =>
      if d.need_thinking.getD false then
        persist_trial_record inp
          (thinking_phase inp.tcfg (normalize_thinking_notes d.thinking_notes)
              inp.thinking_stream inp.min_shortfall).2 d inp.memory
      else persist_trial_record inp [] d inp.memory

/-! ### Concrete fixtures shared by the claim theorems -/

/-- A minimal store entry with a question and an answer. -/
def mk_entry (q a : String) : Entry :=
  { question := str q, answer := str a, thinking_cues := [], decision := none,
    need_thinking := none, confidence := none, final_confidence := [] }

/-- Store with questions `A`, `B`, `C` in insertion order. -/
def mem_abc : TrialMemory :=
  load_list [mk_entry "A" "1", mk_entry "B" "2", mk_entry "C" "3"]

/-- Store loaded from a file that repeats question `A`. -/
def mem_dup : TrialMemory :=
  load_list [mk_entry "A" "1", mk_entry "A" "2", mk_entry "B" "3"]

/-- Store with a single stored question. -/
def mem_joke : TrialMemory := load_list [mk_entry "tell me a joke" "haha"]

/-- A store with no records. -/
def empty_memory : TrialMemory := load_list []

/-- A run of `n` distinct characters starting at code point `start`. -/
def mk_chars (start n : Nat) : Str :=
  (List.range n).map (fun i => Char.ofNat (start + i))

/-- The 59 characters shared by the 0.59-similarity pair: lowercase Cyrillic
(U+0430…) and lowercase Greek (U+03B1…) letters. -/
def shared059 : Str := mk_chars 0x0430 32 ++ mk_chars 0x03B1 27

/-- Query string of the 0.59-similarity pair: the 59 shared letters followed
by 41 Georgian letters (U+10D0…).  All 100 characters are distinct. -/
def a059 : Str := shared059 ++ mk_chars 0x10D0 41

/-- Stored key of the 0.59-similarity pair: the 59 shared letters followed
by 41 Thai letters (U+0E01…).  Both strings consist of lowercase Unicode
word characters only, so each is a fixed point of the program's
Unicode-aware normalization and the store below is reachable; it is built
directly because the model restricts `\w` and `lower()` to ASCII. -/
def b059 : Str := shared059 ++ mk_chars 0x0E01 41

/-- The record stored under the 0.59-pair key. -/
def rec059 : Record :=
  { question := b059, answer := str "x", thinking_cues := [],
    decision := ⟨none, none, none, none, none⟩, final_confidence := [] }

/-- A store holding exactly the 0.59-pair key, at the default threshold. -/
def mem059 : TrialMemory :=
  { records := [(b059, rec059)], norm_index := [(b059, b059)],
    ordered_questions := [b059], match_threshold := ⟨3, 5⟩ }

/-- Store after saving two records whose questions normalize identically
(`"Hello!"` and `"hello"`). -/
def mem_hello : TrialMemory :=
  save_record (save_record empty_memory (mk_entry "Hello!" "x"))
    (mk_entry "hello" "y")

/-- Modelled from the spec: "the insertion-ordered list of distinct stored
questions" that §4.3's alias lookup is said to index into (the code instead
indexes the list of loaded question occurrences, duplicates included). -/
def spec_distinct_stored_questions (m : TrialMemory) : List Str :=
  m.ordered_questions.foldl (fun acc q => if q ∈ acc then acc else acc ++ [q]) []

/-- A decision that answers directly. -/
def decision_direct : Decision :=
  { need_thinking := some false, confidence := some (str "high"),
    thinking_notes := none, reasoning_hint := none,
    answer := some (str "Paris.") }

/-- A decision that requests the thinking phase. -/
def decision_think : Decision :=
  { need_thinking := some true, confidence := none, thinking_notes := none,
    reasoning_hint := none, answer := none }

/-- A time oracle whose deadline has already passed. -/
def tc_now : ThinkCfg := ⟨fun _ => true, 12⟩

/-- Inputs of a direct run on an empty store with a Furhat client. -/
def inp_direct : RunInputs :=
  { question := str "What is the capital of France?", memory := empty_memory,
    use_trial_memory := true, replay_only := false,
    skip_replay_thinking := false, decide_result := Except.ok decision_direct,
    thinking_stream := [], answer_clauses := [], answer_word_count := 0,
    furhat := true, tcfg := tc_now, min_shortfall := false,
    replay_min_shortfall := false, delay_pos := false }

/-- Inputs of a thinking run whose answer stream yields `clauses`. -/
def inp_think (clauses : List Str) : RunInputs :=
  { question := str "Why is the sky blue?", memory := empty_memory,
    use_trial_memory := true, replay_only := false,
    skip_replay_thinking := false, decide_result := Except.ok decision_think,
    thinking_stream := [], answer_clauses := clauses, answer_word_count := 40,
    furhat := true, tcfg := tc_now, min_shortfall := false,
    replay_min_shortfall := false, delay_pos := false }

/-- Inputs of a run whose decision response fails to parse. -/
def inp_parse : RunInputs :=
  { question := str "Hello there", memory := empty_memory,
    use_trial_memory := true, replay_only := false,
    skip_replay_thinking := false, decide_result := Except.error (),
    thinking_stream := [], answer_clauses := [], answer_word_count := 0,
    furhat := true, tcfg := tc_now, min_shortfall := false,
    replay_min_shortfall := false, delay_pos := false }

/-- The (unique) trace of the direct fixture run. -/
def trace_direct : List Event :=
  Event.barrierSet :: respond_directly_events decision_direct false true

/-- The sequential trace of the thinking fixture run (thinking task first). -/
def trace_think (clauses : List Str) : List Event :=
  thinking_task_events (inp_think clauses) decision_think ++
    relay_answer_events clauses true

/-! ### Helper lemmas: lists, interleavings, the barrier -/

/-- Items of a prefix of `l` come from the corresponding positions of `l`. -/
theorem getElem?_take_of_lt {α : Type} (l : List α) {n i : Nat} (h : i < n) :
    (l.take n)[i]? = l[i]? := by
  simp [List.getElem?_take, h]

/-- Sequencing two task bodies is one possible interleaving. -/
theorem interleave_append : ∀ xs ys : List Event, Interleave xs ys (xs ++ ys) := by
  intro xs ys
  induction xs with
  | nil =>
    induction ys with
    | nil => exact .nil
    | cons y ys ih => exact .right ih
  | cons x xs ih => exact .left ih

/-- An interleaving is a permutation of the concatenation of the two tasks. -/
theorem interleave_perm {xs ys zs : List Event} (h : Interleave xs ys zs) :
    zs.Perm (xs ++ ys) := by
  induction h with
  | nil => rfl
  | left _ ih => exact ih.cons _
  | right _ ih => exact (ih.cons _).trans (List.Perm.symm (List.perm_middle))

/-- Every prefix of an interleaving is an interleaving of prefixes. -/
theorem interleave_take {xs ys zs : List Event} (h : Interleave xs ys zs) :
    ∀ n, ∃ i j, Interleave (xs.take i) (ys.take j) (zs.take n) := by
  induction h with
  | nil => intro n; exact ⟨0, 0, by simpa using Interleave.nil⟩
  | @left xs ys zs x _ ih =>
    intro n
    match n with
    | 0 => exact ⟨0, 0, by simpa using Interleave.nil⟩
    | n + 1 =>
      obtain ⟨i, j, hij⟩ := ih n
      exact ⟨i + 1, j, .left hij⟩
  | @right xs ys zs y _ ih =>
    intro n
    match n with
    | 0 => exact ⟨0, 0, by simpa using Interleave.nil⟩
    | n + 1 =>
      obtain ⟨i, j, hij⟩ := ih n
      exact ⟨i, j + 1, .right hij⟩

/-- In a barrier-disciplined trace, any completed wait is preceded by a set
(unless the barrier was already set on entry). -/
theorem barrier_ok_wait {t : List Event} {seen : Bool} {i : Nat}
    (hok : barrier_ok seen t = true) (hw : t[i]? = some Event.barrierWait) :
    seen = true ∨ ∃ j, j < i ∧ t[j]? = some Event.barrierSet := by
  induction t generalizing seen i with
  | nil => simp at hw
  | cons e rest ih =>
    match e, i with
    | Event.barrierWait, 0 =>
      left
      unfold barrier_ok at hok
      exact (Bool.and_eq_true_iff.mp hok).1
    | Event.barrierWait, i + 1 =>
      unfold barrier_ok at hok
      have h2 := (Bool.and_eq_true_iff.mp hok).2
      rcases ih h2 (by simpa using hw) with h | ⟨j, hj, hjs⟩
      · exact Or.inl h
      · exact Or.inr ⟨j + 1, by omega, by simpa using hjs⟩
    | Event.barrierSet, 0 => simp at hw
    | Event.barrierSet, i + 1 =>
      unfold barrier_ok at hok
      rcases ih hok (by simpa using hw) with h | ⟨j, hj, hjs⟩
      · exact Or.inr ⟨0, by omega, by simp⟩
      · exact Or.inr ⟨j + 1, by omega, by simpa using hjs⟩
    | Event.speak src txt, 0 => simp at hw
    | Event.speak src txt, i + 1 =>
      unfold barrier_ok at hok
      rcases ih hok (by simpa using hw) with h | ⟨j, hj, hjs⟩
      · exact Or.inl h
      · exact Or.inr ⟨j + 1, by omega, by simpa using hjs⟩
    | Event.performBehavior n, 0 => simp at hw
    | Event.performBehavior n, i + 1 =>
      unfold barrier_ok at hok
      rcases ih hok (by simpa using hw) with h | ⟨j, hj, hjs⟩
      · exact Or.inl h
      · exact Or.inr ⟨j + 1, by omega, by simpa using hjs⟩
    | Event.sleep, 0 => simp at hw
    | Event.sleep, i + 1 =>
      unfold barrier_ok at hok
      rcases ih hok (by simpa using hw) with h | ⟨j, hj, hjs⟩
      · exact Or.inl h
      · exact Or.inr ⟨j + 1, by omega, by simpa using hjs⟩

/-- Events of the controller-notes loop are behavior dispatches or pauses. -/
theorem relay_notes_events_shape (tc : ThinkCfg) :
    ∀ (notes : List Str) (em k : Nat) (e : Event),
      e ∈ (relay_notes tc notes em k).events →
      (∃ n, e = Event.performBehavior n) ∨ e = Event.sleep := by
  intro notes
  induction notes with
  | nil => intro em k e he; simp [relay_notes] at he
  | cons note rest ih =>
    intro em k e he
    unfold relay_notes at he
    by_cases h1 : tc.time_up k = true ∨ tc.max_cues ≤ em
    · simp [h1] at he
    · simp only [if_pos, if_neg h1] at he
      by_cases h2 : py_strip note = []
      · simp only [if_pos h2] at he
        exact ih em (k + 1) e he
      · simp only [if_neg h2] at he
        by_cases h3 : tc.time_up (k + 1) = true ∨ tc.max_cues ≤ em + 1
        · simp [h3] at he
          exact Or.inl ⟨em, he⟩
        · simp only [if_neg h3, List.mem_cons] at he
          rcases he with rfl | rfl | he
          · exact Or.inl ⟨em, rfl⟩
          · exact Or.inr rfl
          · exact ih (em + 1) (k + 2) e he

/-- Events of the streamed-cues loop are behavior dispatches or pauses. -/
theorem relay_cues_events_shape (tc : ThinkCfg) :
    ∀ (cues : List Str) (em k : Nat) (e : Event),
      e ∈ (relay_cues tc cues em k).events →
      (∃ n, e = Event.performBehavior n) ∨ e = Event.sleep := by
  intro cues
  induction cues with
  | nil => intro em k e he; simp [relay_cues] at he
  | cons cue rest ih =>
    intro em k e he
    unfold relay_cues at he
    by_cases h1 : tc.time_up k = true ∨ tc.max_cues ≤ em
    · simp [h1] at he
    · simp only [if_pos, if_neg h1] at he
      by_cases h2 : ¬ is_meaningful_thinking_cue cue = true
      · simp only [if_pos h2] at he
        exact ih em (k + 1) e he
      · simp only [if_neg h2] at he
        by_cases h3 : tc.time_up (k + 1) = true ∨ tc.max_cues ≤ em + 1
        · simp [h3] at he
          exact Or.inl ⟨em, he⟩
        · simp only [if_neg h3, List.mem_cons] at he
          rcases he with rfl | rfl | he
          · exact Or.inl ⟨em, rfl⟩
          · exact Or.inr rfl
          · exact ih (em + 1) (k + 2) e he

/-! ### Helper lemmas: fraction order and the fuzzy scan -/

/-- `a < b` is falsified exactly when `b ≤ a` (cross-multiplied naturals). -/
theorem frac_le_of_not_lt {a b : Frac} (h : ¬ frac_lt a b) : frac_le b a :=
  Nat.le_of_not_lt h

/-- Strict order implies weak order on fraction values. -/
theorem frac_le_of_lt {a b : Frac} (h : frac_lt a b) : frac_le a b :=
  Nat.le_of_lt h

/-- Transitivity of the value order (the middle denominator must be
positive, as it is for every similarity score). -/
theorem frac_le_trans {a b c : Frac} (hb : 0 < b.den)
    (h1 : frac_le a b) (h2 : frac_le b c) : frac_le a c := by
  unfold frac_le at *
  have k1 : a.num * b.den * c.den ≤ b.num * a.den * c.den :=
    Nat.mul_le_mul_right _ h1
  have k2 : b.num * c.den * a.den ≤ c.num * b.den * a.den :=
    Nat.mul_le_mul_right _ h2
  have key : a.num * c.den * b.den ≤ c.num * a.den * b.den := by
    calc a.num * c.den * b.den = a.num * b.den * c.den := by ring
    _ ≤ b.num * a.den * c.den := k1
    _ = b.num * c.den * a.den := by ring
    _ ≤ c.num * b.den * a.den := k2
    _ = c.num * a.den * b.den := by ring
  exact Nat.le_of_mul_le_mul_right key hb

/-- Weak-then-strict transitivity (the left denominator must be positive). -/
theorem frac_lt_of_le_of_lt {a b c : Frac} (ha : 0 < a.den)
    (h1 : frac_le a b) (h2 : frac_lt b c) : frac_lt a c := by
  unfold frac_le frac_lt at *
  have k1 : a.num * b.den * c.den ≤ b.num * a.den * c.den :=
    Nat.mul_le_mul_right _ h1
  have k2 : b.num * c.den * a.den < c.num * b.den * a.den :=
    Nat.mul_lt_mul_of_pos_right h2 ha
  have key : a.num * c.den * b.den < c.num * a.den * b.den := by
    calc a.num * c.den * b.den = a.num * b.den * c.den := by ring
    _ ≤ b.num * a.den * c.den := k1
    _ = b.num * c.den * a.den := by ring
    _ < c.num * b.den * a.den := k2
    _ = c.num * a.den * b.den := by ring
  exact Nat.lt_of_mul_lt_mul_right key

/-- Strict transitivity (the right denominator must be positive). -/
theorem frac_lt_trans {a b c : Frac} (hc : 0 < c.den)
    (h1 : frac_lt a b) (h2 : frac_lt b c) : frac_lt a c := by
  unfold frac_lt at *
  have k1 : a.num * b.den * c.den < b.num * a.den * c.den :=
    Nat.mul_lt_mul_of_pos_right h1 hc
  have k2 : b.num * c.den * a.den ≤ c.num * b.den * a.den :=
    Nat.mul_le_mul_right _ (Nat.le_of_lt h2)
  have key : a.num * c.den * b.den < c.num * a.den * b.den := by
    calc a.num * c.den * b.den = a.num * b.den * c.den := by ring
    _ < b.num * a.den * c.den := k1
    _ = b.num * c.den * a.den := by ring
    _ ≤ c.num * b.den * a.den := k2
    _ = c.num * a.den * b.den := by ring
  exact Nat.lt_of_mul_lt_mul_right key

/-- Similarity scores always have a positive denominator. -/
theorem score_den_pos (a b : Str) : 0 < (similarity_score a b).den := by
  unfold similarity_score
  by_cases h : a.length + b.length = 0
  · simp [h]
  · simp [h]; omega

/-- Characterization of the fuzzy scan: either no candidate strictly beats
the incoming best and the accumulator survives, or the result is the first
candidate attaining the running maximum — every earlier candidate scores
strictly lower, every later one no higher. -/
theorem best_loop_spec (nq : Str) :
    ∀ (l : List (Str × Str)) (bq : Option Str) (bs : Frac),
      (best_loop nq l (bq, bs) = (bq, bs) ∧
        ∀ e ∈ l, frac_le (similarity_score nq e.1) bs) ∨
      (∃ pre nc q post, l = pre ++ (nc, q) :: post ∧
        best_loop nq l (bq, bs) = (some q, similarity_score nq nc) ∧
        frac_lt bs (similarity_score nq nc) ∧
        (∀ e ∈ pre, frac_lt (similarity_score nq e.1) (similarity_score nq nc)) ∧
        (∀ e ∈ post, frac_le (similarity_score nq e.1) (similarity_score nq nc))) := by
  intro l
  induction l with
  | nil =>
    intro bq bs
    exact Or.inl ⟨rfl, by simp⟩
  | cons hd rest ih =>
    intro bq bs
    obtain ⟨nc, q⟩ := hd
    by_cases h : frac_lt bs (similarity_score nq nc)
    · have hstep : best_loop nq ((nc, q) :: rest) (bq, bs) =
          best_loop nq rest (some q, similarity_score nq nc) := by
        simp [best_loop, h]
      rcases ih (some q) (similarity_score nq nc) with ⟨heq, hall⟩ |
        ⟨pre', nc', q', post', hl, hval, hlt, hpre, hpost⟩
      · refine Or.inr ⟨[], nc, q, rest, by simp, ?_, h, by simp, hall⟩
        rw [hstep, heq]
      · refine Or.inr ⟨(nc, q) :: pre', nc', q', post', by simp [hl], ?_, ?_, ?_, hpost⟩
        · rw [hstep, hval]
        · exact frac_lt_trans (score_den_pos nq nc') h hlt
        · intro e he
          rcases List.mem_cons.mp he with rfl | he'
          · exact hlt
          · exact hpre e he'
    · have hle : frac_le (similarity_score nq nc) bs := frac_le_of_not_lt h
      have hstep : best_loop nq ((nc, q) :: rest) (bq, bs) =
          best_loop nq rest (bq, bs) := by
        simp [best_loop, h]
      rcases ih bq bs with ⟨heq, hall⟩ |
        ⟨pre', nc', q', post', hl, hval, hlt, hpre, hpost⟩
      · refine Or.inl ⟨by rw [hstep, heq], ?_⟩
        intro e he
        rcases List.mem_cons.mp he with rfl | he'
        · exact hle
        · exact hall e he'
      · refine Or.inr ⟨(nc, q) :: pre', nc', q', post', by simp [hl], ?_, hlt, ?_, hpost⟩
        · rw [hstep, hval]
        · intro e he
          rcases List.mem_cons.mp he with rfl | he'
          · exact frac_lt_of_le_of_lt (score_den_pos nq nc) hle hlt
          · exact hpre e he'

/-- Soundness of `_best_fuzzy_match`: a returned match scores at least the
threshold, strictly above zero, and is the first stored key attaining the
maximum score (earlier keys score strictly lower, later ones no higher). -/
theorem best_fuzzy_sound {m : TrialMemory} {nq q : Str} {s : Frac}
    (h : best_fuzzy_match m nq = some (q, s)) :
    frac_le m.match_threshold s ∧ frac_lt ⟨0, 1⟩ s ∧
      ∃ pre nc post, m.norm_index = pre ++ (nc, q) :: post ∧
        s = similarity_score nq nc ∧
        (∀ e ∈ pre, frac_lt (similarity_score nq e.1) s) ∧
        (∀ e ∈ post, frac_le (similarity_score nq e.1) s) := by
  unfold best_fuzzy_match at h
  rcases best_loop_spec nq m.norm_index none ⟨0, 1⟩ with ⟨heq, _⟩ |
    ⟨pre, nc, q', post, hl, hval, hlt, hpre, hpost⟩
  · rw [heq] at h; simp at h
  · rw [hval] at h
    by_cases hθ : frac_le m.match_threshold (similarity_score nq nc)
    · simp only [if_pos hθ, Option.some.injEq, Prod.mk.injEq] at h
      obtain ⟨rfl, rfl⟩ := h
      exact ⟨hθ, hlt, pre, nc, post, hl, rfl, hpre, hpost⟩
    · simp [hθ] at h

/-- Completeness of `_best_fuzzy_match`: with a positive threshold, if any
stored key scores at least the threshold, the lookup accepts. -/
theorem best_fuzzy_complete {m : TrialMemory} {nq : Str} {e : Str × Str}
    (he : e ∈ m.norm_index) (hpos : 0 < m.match_threshold.num)
    (hθ : frac_le m.match_threshold (similarity_score nq e.1)) :
    ∃ r, best_fuzzy_match m nq = some r := by
  unfold best_fuzzy_match
  rcases best_loop_spec nq m.norm_index none ⟨0, 1⟩ with ⟨heq, hall⟩ |
    ⟨pre, nc, q', post, hl, hval, hlt, hpre, hpost⟩
  · exfalso
    have h0 : frac_le m.match_threshold ⟨0, 1⟩ :=
      frac_le_trans (score_den_pos nq e.1) hθ (hall e he)
    unfold frac_le at h0
    simp at h0
    omega
  · rw [hval]
    have hacc : frac_le m.match_threshold (similarity_score nq nc) := by
      rw [hl] at he
      rcases List.mem_append.mp he with hin | hin
      · exact frac_le_trans (score_den_pos nq e.1) hθ (frac_le_of_lt (hpre e hin))
      · rcases List.mem_cons.mp hin with rfl | hin'
        · exact hθ
        · exact frac_le_trans (score_den_pos nq e.1) hθ (hpost e hin')
    exact ⟨(q', similarity_score nq nc), by simp [hacc]⟩

/-! ### Helper lemmas: stripping and clause shape -/

/-- Dropping a while-prefix from a list that ends in `c` leaves nothing or a
list still ending in `c`. -/
theorem dropWhile_append_last (p : Char → Bool) :
    ∀ (xs : Str) (c : Char),
      (xs ++ [c]).dropWhile p = [] ∨
        ∃ ys, (xs ++ [c]).dropWhile p = ys ++ [c] := by
  intro xs c
  induction xs with
  | nil =>
    by_cases h : p c
    · exact Or.inl (by simp [List.dropWhile, h])
    · exact Or.inr ⟨[], by simp [List.dropWhile, h]⟩
  | cons x xs ih =>
    by_cases h : p x
    · simpa [List.dropWhile, h] using ih
    · exact Or.inr ⟨x :: xs, by simp [List.dropWhile, h]⟩

/-- A list unchanged by `dropWhile` has no initial `p`-character. -/
theorem head_false_of_dropWhile_eq {p : Char → Bool} {c : Char} {cs : Str}
    (h : (c :: cs).dropWhile p = c :: cs) : p c = false := by
  by_cases hc : p c
  · exfalso
    have hlen : (List.dropWhile p (c :: cs)).length ≤ cs.length := by
      simpa [List.dropWhile, hc] using
        (List.dropWhile_sublist (l := cs) p).length_le
    rw [h] at hlen
    simp at hlen
  · simpa using hc

/-- `drop_trailing` preserves freedom from a leading `p`-character. -/
theorem dropWhile_drop_trailing {p : Char → Bool} {u : Str}
    (hu : u.dropWhile p = u) :
    (drop_trailing p u).dropWhile p = drop_trailing p u := by
  cases u with
  | nil => simp [drop_trailing]
  | cons c cs =>
    have hc : p c = false := head_false_of_dropWhile_eq hu
    unfold drop_trailing
    rw [List.reverse_cons]
    rcases dropWhile_append_last p cs.reverse c with h | ⟨ys, h⟩
    · rw [h]; simp
    · rw [h]
      simp [List.dropWhile, hc]

/-- Python `strip` is idempotent. -/
theorem py_strip_idem (s : Str) : py_strip (py_strip s) = py_strip s := by
  have hu : (s.dropWhile py_is_space).dropWhile py_is_space =
      s.dropWhile py_is_space := List.dropWhile_idempotent _ _
  unfold py_strip
  rw [dropWhile_drop_trailing hu]
  unfold drop_trailing
  rw [List.reverse_reverse, List.dropWhile_idempotent]

/-- Every clause emitted by `_pop_ready_clauses` is a stripped, non-empty
piece of the buffer. -/
theorem pop_ready_aux_mem :
    ∀ (rest piece : Str) (c : Str), c ∈ (pop_ready_aux piece rest).1 →
      (∃ x, c = py_strip x) ∧ c ≠ [] := by
  intro rest
  induction rest with
  | nil => intro piece c hc; simp [pop_ready_aux] at hc
  | cons ch rest ih =>
    intro piece c hc
    unfold pop_ready_aux at hc
    by_cases ht : is_terminal ch
    · simp only [if_pos ht] at hc
      by_cases hcl : py_strip (piece ++ [ch]) = []
      · simp only [if_pos hcl] at hc
        exact ih [] c hc
      · simp only [if_neg hcl, List.mem_cons] at hc
        rcases hc with rfl | hc
        · exact ⟨⟨piece ++ [ch], rfl⟩, hcl⟩
        · exact ih [] c hc
    · simp only [if_neg ht] at hc
      exact ih (piece ++ [ch]) c hc

/-- Every clause emitted by the streamer is a stripped, non-empty string. -/
theorem generate_clauses_aux_mem :
    ∀ (toks : List Str) (buffer : Str) (wc : Nat) (c : Str),
      c ∈ (generate_clauses_aux buffer wc toks).1 →
      (∃ x, c = py_strip x) ∧ c ≠ [] := by
  intro toks
  induction toks with
  | nil =>
    intro buffer wc c hc
    unfold generate_clauses_aux at hc
    by_cases hb : py_strip buffer = []
    · simp [hb] at hc
    · simp only [if_neg hb, List.mem_singleton] at hc
      subst hc
      exact ⟨⟨buffer, rfl⟩, hb⟩
  | cons tok rest ih =>
    intro buffer wc c hc
    unfold generate_clauses_aux at hc
    simp only [List.mem_append] at hc
    rcases hc with hc | hc
    · exact pop_ready_aux_mem _ _ _ hc
    · exact ih _ _ _ hc

/-! ### Helper lemmas: dict keys -/

/-- Key list after a Python-dict insertion: unchanged when the key exists,
appended otherwise. -/
theorem dict_insert_keys {β : Type} (k : Str) (v : β) :
    ∀ d : List (Str × β),
      (dict_insert k v d).map Prod.fst =
        if k ∈ d.map Prod.fst then d.map Prod.fst
        else d.map Prod.fst ++ [k] := by
  intro d
  induction d with
  | nil => simp [dict_insert]
  | cons p rest ih =>
    obtain ⟨k', v'⟩ := p
    by_cases h : k' = k
    · unfold dict_insert
      simp only [if_pos h, List.map_cons, h]
      rw [if_pos (List.mem_cons_self _ _)]
      simp
    · unfold dict_insert
      simp only [if_neg h, List.map_cons]
      by_cases hk : k ∈ rest.map Prod.fst
      · simp [hk, ih, Ne.symm h]
      · simp [hk, ih, Ne.symm h]

/-- Python-dict insertion preserves key uniqueness. -/
theorem dict_insert_nodup {β : Type} (k : Str) (v : β) (d : List (Str × β))
    (h : (d.map Prod.fst).Nodup) : ((dict_insert k v d).map Prod.fst).Nodup := by
  rw [dict_insert_keys]
  by_cases hk : k ∈ d.map Prod.fst
  · simpa [hk] using h
  · simp only [if_neg hk]
    simp [List.nodup_append, h, hk]

/-- Looking up the inserted key returns the inserted value. -/
theorem dict_get_insert_self {β : Type} (k : Str) (v : β) :
    ∀ d : List (Str × β), dict_get (dict_insert k v d) k = some v := by
  intro d
  induction d with
  | nil => simp [dict_insert, dict_get]
  | cons p rest ih =>
    obtain ⟨k', v'⟩ := p
    by_cases h : k' = k
    · subst h; simp [dict_insert, dict_get]
    · simp [dict_insert, dict_get, h, ih]

/-- A successful dict lookup exhibits a stored binding. -/
theorem dict_get_mem {β : Type} {k : Str} {v : β} :
    ∀ {d : List (Str × β)}, dict_get d k = some v → (k, v) ∈ d := by
  intro d
  induction d with
  | nil => intro h; simp [dict_get] at h
  | cons p rest ih =>
    intro h
    obtain ⟨k', v'⟩ := p
    unfold dict_get at h
    by_cases hk : k' = k
    · rw [if_pos hk] at h
      subst hk
      simp only [Option.some.injEq] at h
      subst h
      exact List.mem_cons_self _ _
    · rw [if_neg hk] at h
      exact List.mem_cons_of_mem _ (ih h)

/-- Bindings after a dict insertion are the new one or old ones. -/
theorem dict_insert_mem {β : Type} {k : Str} {v : β} {p : Str × β} :
    ∀ {d : List (Str × β)}, p ∈ dict_insert k v d → p = (k, v) ∨ p ∈ d := by
  intro d
  induction d with
  | nil => intro h; simp [dict_insert] at h; exact Or.inl h
  | cons q rest ih =>
    intro h
    obtain ⟨k', v'⟩ := q
    unfold dict_insert at h
    by_cases hk : k' = k
    · rw [if_pos hk] at h
      subst hk
      rcases List.mem_cons.mp h with rfl | h'
      · exact Or.inl rfl
      · exact Or.inr (List.mem_cons_of_mem _ h')
    · rw [if_neg hk] at h
      rcases List.mem_cons.mp h with rfl | h'
      · exact Or.inr (List.mem_cons_self _ _)
      · rcases ih h' with h'' | h''
        · exact Or.inl h''
        · exact Or.inr (List.mem_cons_of_mem _ h'')

/-- A record found by the alias stage is stored in the record dict. -/
theorem get_alias_result_mem {m : TrialMemory} {key : Str} {r : Record}
    (h : get_alias_result m key = some r) : ∃ k, (k, r) ∈ m.records := by
  unfold get_alias_result at h
  rcases hra : resolve_index_alias m key with _ | aq <;> rw [hra] at h
  · simp at h
  · exact ⟨aq, dict_get_mem h⟩

/-- A record found by the exact stage is stored in the record dict. -/
theorem get_exact_result_mem {m : TrialMemory} {norm : Str} {r : Record}
    (h : get_exact_result m norm = some r) : ∃ k, (k, r) ∈ m.records := by
  unfold get_exact_result at h
  rcases hni : dict_get m.norm_index norm with _ | original <;> rw [hni] at h
  · simp at h
  · exact ⟨original, dict_get_mem h⟩

/-- A record found by the fuzzy stage is stored in the record dict. -/
theorem get_fuzzy_result_mem {m : TrialMemory} {norm : Str} {r : Record}
    (h : get_fuzzy_result m norm = some r) : ∃ k, (k, r) ∈ m.records := by
  unfold get_fuzzy_result at h
  rcases hbf : best_fuzzy_match m norm with _ | ⟨matched, s⟩ <;> rw [hbf] at h
  · simp at h
  · exact ⟨matched, dict_get_mem h⟩

/-- A record returned by `TrialMemory.get` is stored in the record dict. -/
theorem get_from_records {m : TrialMemory} {q : Str} {r : Record}
    (h : m.get q = some r) : ∃ k, (k, r) ∈ m.records := by
  simp only [TrialMemory.get] at h
  by_cases h0 : py_strip q = []
  · simp [h0] at h
  · rw [if_neg h0] at h
    rcases hal : get_alias_result m (py_strip q) with _ | r' <;> rw [hal] at h
    · by_cases hn : normalize_text (py_strip q) = []
      · simp [hn] at h
      · rw [if_neg hn] at h
        rcases hex : get_exact_result m (normalize_text (py_strip q)) with _ | r'' <;>
          rw [hex] at h
        · exact get_fuzzy_result_mem h
        · simp only [Option.some.injEq] at h
          subst h
          exact get_exact_result_mem hex
    · simp only [Option.some.injEq] at h
      subst h
      exact get_alias_result_mem hal

/-- Every record loaded from the store has a stripped answer
(`_normalize_record` strips it). -/
theorem load_list_answer_stripped (entries : List Entry) :
    ∀ p ∈ (load_list entries).records, ∃ x, p.2.answer = py_strip x := by
  have key : ∀ (es : List Entry) (acc : List (Str × Record) × List Str),
      (∀ p ∈ acc.1, ∃ x, p.2.answer = py_strip x) →
      ∀ p ∈ (es.foldl
        (fun (acc : List (Str × Record) × List Str) (e : Entry) =>
          match normalize_record e with
          | none => acc
          | some r => (dict_insert r.question r acc.1, acc.2 ++ [r.question]))
        acc).1, ∃ x, p.2.answer = py_strip x := by
    intro es
    induction es with
    | nil => intro acc hacc p hp; exact hacc p hp
    | cons e rest ih =>
      intro acc hacc p hp
      simp only [List.foldl_cons] at hp
      rcases hne : normalize_record e with _ | r
      · rw [hne] at hp
        exact ih acc hacc p hp
      · rw [hne] at hp
        refine ih _ ?_ p hp
        intro p' hp'
        rcases dict_insert_mem hp' with rfl | hp''
        · unfold normalize_record at hne
          by_cases hq : py_strip e.question = []
          · simp [hq] at hne
          · rw [if_neg hq] at hne
            simp only [Option.some.injEq] at hne
            subst hne
            exact ⟨e.answer, rfl⟩
        · exact hacc p' hp''
  intro p hp
  exact key entries ([], []) (by simp) p hp

/-- The thinking task never issues a `speak` call. -/
theorem thinking_task_no_speak (inp : RunInputs) (d : Decision)
    (src : SpeakSource) (txt : Str) :
    Event.speak src txt ∉ thinking_task_events inp d := by
  intro hmem
  unfold thinking_task_events thinking_phase at hmem
  simp only [List.mem_append, List.mem_cons] at hmem
  rcases hmem with ((h | h) | h) | h
  · rcases relay_notes_events_shape _ _ _ _ _ h with ⟨n, hn⟩ | hs <;> simp_all
  · rcases relay_cues_events_shape _ _ _ _ _ h with ⟨n, hn⟩ | hs <;> simp_all
  · by_cases hm : inp.min_shortfall <;> simp [hm] at h
  · simp at h

/-- Does this event record a `request_speak_text` call? -/
def is_speak (e : Event) : Bool :=
  match e with
  | Event.speak _ _ => true
  | _ => false

/-- Number of `request_speak_text` calls recorded in a trace. -/
def count_speaks (t : List Event) : Nat := t.countP is_speak

/-- The thinking task records no speak call. -/
theorem count_speaks_thinking_task (inp : RunInputs) (d : Decision) :
    count_speaks (thinking_task_events inp d) = 0 := by
  unfold count_speaks
  rw [List.countP_eq_zero]
  intro e he
  cases e with
  | speak src txt => exact absurd he (thinking_task_no_speak inp d src txt)
  | performBehavior n => simp [is_speak]
  | sleep => simp [is_speak]
  | barrierSet => simp [is_speak]
  | barrierWait => simp [is_speak]

/-- Any speak call of the answer relay is the single combined utterance. -/
theorem speak_mem_answer_events {clauses : List Str} {furhat : Bool}
    {src : SpeakSource} {txt : Str}
    (h : Event.speak src txt ∈ relay_answer_events clauses furhat) :
    src = SpeakSource.answerRelay ∧ txt = relay_answer_text clauses ∧
      furhat = true ∧ clauses ≠ [] := by
  unfold relay_answer_events at h
  by_cases hc : clauses = []
  · simp [hc] at h
  · simp only [if_neg hc, List.mem_cons] at h
    rcases h with h | h
    · simp at h
    · by_cases hf : furhat <;> simp [hf] at h
      exact ⟨h.1, h.2, hf, hc⟩

/-- Speak count of the answer relay: one combined call when any clause
arrived and a client is present, none otherwise. -/
theorem count_speaks_answer_events (clauses : List Str) (furhat : Bool) :
    count_speaks (relay_answer_events clauses furhat) =
      if clauses = [] then 0 else if furhat then 1 else 0 := by
  unfold count_speaks relay_answer_events
  by_cases hc : clauses = []
  · simp [hc]
  · by_cases hf : furhat <;> simp [hc, hf, is_speak]

/-- Any speak call of the direct branch is the single direct utterance. -/
theorem speak_mem_direct_events {d : Decision} {delay_pos furhat : Bool}
    {src : SpeakSource} {txt : Str}
    (h : Event.speak src txt ∈ respond_directly_events d delay_pos furhat) :
    src = SpeakSource.direct ∧ txt = direct_text d ∧ furhat = true := by
  unfold respond_directly_events at h
  simp only [List.mem_append] at h
  rcases h with h | h
  · by_cases hd : delay_pos <;> simp [hd] at h
  · by_cases hf : furhat <;> simp [hf] at h
    exact ⟨h.1, h.2, hf⟩

/-- Speak count of the direct branch. -/
theorem count_speaks_direct_events (d : Decision) (delay_pos furhat : Bool) :
    count_speaks (respond_directly_events d delay_pos furhat) =
      if furhat then 1 else 0 := by
  unfold count_speaks respond_directly_events
  by_cases hd : delay_pos <;> by_cases hf : furhat <;>
    simp [hd, hf, is_speak]

/-- The replay cue loop only dispatches behaviors and pauses. -/
theorem replay_cue_events_shape :
    ∀ (cues : List Str) (idx : Nat) (e : Event),
      e ∈ replay_cue_events idx cues →
      (∃ n, e = Event.performBehavior n) ∨ e = Event.sleep := by
  intro cues
  induction cues with
  | nil => intro idx e he; simp [replay_cue_events] at he
  | cons c rest ih =>
    intro idx e he
    unfold replay_cue_events at he
    by_cases hr : rest = []
    · simp [hr] at he
      exact Or.inl ⟨idx, he⟩
    · simp only [if_neg hr, List.mem_cons] at he
      rcases he with rfl | rfl | he
      · exact Or.inl ⟨idx, rfl⟩
      · exact Or.inr rfl
      · exact ih (idx + 1) e he

/-- Any speak call of the replay branch is the stored answer, verbatim. -/
theorem speak_mem_replay_events {record : Record}
    {skip_thinking replay_min_shortfall delay_pos furhat : Bool}
    {src : SpeakSource} {txt : Str}
    (h : Event.speak src txt ∈
      replay_events record skip_thinking replay_min_shortfall delay_pos furhat) :
    src = SpeakSource.replay ∧ txt = py_strip record.answer ∧ furhat = true := by
  have hspk : Event.speak src txt ∈ replay_speak_part record furhat →
      src = SpeakSource.replay ∧ txt = py_strip record.answer ∧ furhat = true := by
    intro hmem
    unfold replay_speak_part at hmem
    by_cases hf : furhat <;> simp [hf] at hmem
    exact ⟨hmem.1, hmem.2, hf⟩
  unfold replay_events at h
  by_cases hb : (replay_need_thinking record skip_thinking &&
      !(replay_cues_of record).isEmpty) = true
  · rw [if_pos hb] at h
    simp only [List.mem_append, List.mem_cons] at h
    rcases h with (h | h) | h | h
    · rcases replay_cue_events_shape _ _ _ h with ⟨n, hn⟩ | hs <;> simp_all
    · by_cases hm : replay_min_shortfall <;> simp [hm] at h
    · simp at h
    · exact hspk h
  · rw [if_neg hb] at h
    simp only [List.mem_append, List.mem_cons] at h
    rcases h with h | h | h
    · by_cases hdp : delay_pos <;> simp [hdp] at h
    · simp at h
    · exact hspk h

/-- Speak count of the replay branch. -/
theorem count_speaks_replay_events (record : Record)
    (skip_thinking replay_min_shortfall delay_pos furhat : Bool) :
    count_speaks
        (replay_events record skip_thinking replay_min_shortfall delay_pos furhat) =
      if furhat then 1 else 0 := by
  have hcues : ∀ (cues : List Str) (idx : Nat),
      (replay_cue_events idx cues).countP is_speak = 0 := by
    intro cues idx
    rw [List.countP_eq_zero]
    intro e he
    rcases replay_cue_events_shape _ _ _ he with ⟨n, hn⟩ | hs <;>
      subst_vars <;> simp [is_speak]
  have hspk : (replay_speak_part record furhat).countP is_speak =
      if furhat then 1 else 0 := by
    unfold replay_speak_part
    by_cases hf : furhat <;> simp [hf, is_speak]
  unfold count_speaks replay_events
  by_cases hb : (replay_need_thinking record skip_thinking &&
      !(replay_cues_of record).isEmpty) = true
  · rw [if_pos hb]
    by_cases hm : replay_min_shortfall <;>
      simp [hm, is_speak, hcues, hspk, List.countP_append, List.countP_cons]
  · rw [if_neg hb]
    by_cases hdp : delay_pos <;>
      simp [hdp, is_speak, hspk, List.countP_append, List.countP_cons]

/-- A buffer with no sentence-terminal character is retained whole. -/
theorem pop_ready_aux_no_terminal :
    ∀ (text piece : Str), (∀ ch ∈ text, is_terminal ch = false) →
      pop_ready_aux piece text = ([], piece ++ text) := by
  intro text
  induction text with
  | nil => intro piece _; simp [pop_ready_aux]
  | cons c rest ih =>
    intro piece hch
    have hc : is_terminal c = false := hch c (List.mem_cons_self _ _)
    unfold pop_ready_aux
    rw [if_neg (by simp [hc])]
    rw [ih (piece ++ [c]) (fun ch hm => hch ch (List.mem_cons_of_mem _ hm))]
    simp

/-- The alias stage has first priority in `TrialMemory.get`. -/
theorem get_alias_first {m : TrialMemory} {question aq : Str} {r : Record}
    (h0 : py_strip question ≠ [])
    (h1 : resolve_index_alias m (py_strip question) = some aq)
    (h2 : dict_get m.records aq = some r) :
    m.get question = some r := by
  simp only [TrialMemory.get]
  rw [if_neg h0]
  unfold get_alias_result
  rw [h1]
  simp only [h2]

/-- The direct fixture produces its unique trace. -/
theorem run_trace_direct : RunTrace inp_direct trace_direct := rfl

/-- The sequential trace of the thinking fixture with one answer clause is a
valid run trace. -/
theorem run_trace_think_hi :
    RunTrace (inp_think [str "Hi."]) (trace_think [str "Hi."]) :=
  ⟨interleave_append _ _, by decide⟩

/-- The sequential trace of the thinking fixture with an empty answer stream
is a valid run trace. -/
theorem run_trace_think_empty : RunTrace (inp_think []) (trace_think []) :=
  ⟨interleave_append _ _, by decide⟩

/-- The parse-failure fixture produces the empty trace. -/
theorem run_trace_parse : RunTrace inp_parse [] := rfl

/-! ### Claims -/

/-- C6: the clause segmenter, fed fragments incrementally, cuts the buffer at
every sentence-terminal character (`.`, `?`, `!`), trims each cut piece,
emits it iff non-empty, retains the untrimmed remainder, and after the feed
ends emits the trimmed remainder iff non-empty; in particular the fragments
`["Hel", "lo there. How are", " you?"]` yield exactly the clauses
`["Hello there.", "How are you?"]` in that order. -/
theorem claim_C6_segmentation :
    generate_clauses [str "Hel", str "lo there. How are", str " you?"] =
      [str "Hello there.", str "How are you?"] ∧
    pop_ready_clauses (str "Hello there. How are") =
      ([str "Hello there."], str " How are") ∧
    (∀ text : Str, (∀ ch ∈ text, is_terminal ch = false) →
      pop_ready_clauses text = ([], text)) ∧
    (∀ (fragments : List Str) (c : Str), c ∈ generate_clauses fragments →
      py_strip c = c ∧ c ≠ []) := by
  refine ⟨by decide, by decide, ?_, ?_⟩
  · intro text h
    unfold pop_ready_clauses
    rw [pop_ready_aux_no_terminal text [] h]
    simp
  · intro fragments c hc
    obtain ⟨⟨x, hx⟩, hne⟩ := generate_clauses_aux_mem fragments [] 0 c hc
    subst hx
    exact ⟨py_strip_idem x, hne⟩

/-- Witness for C6 at concrete inputs. -/
theorem claim_C6_segmentation_witness :
    pop_ready_clauses (str "Hel") = ([], str "Hel") ∧
    (py_strip (str "Hello there.") = str "Hello there." ∧
      str "Hello there." ≠ []) :=
  ⟨claim_C6_segmentation.2.2.1 (str "Hel") (by decide),
    claim_C6_segmentation.2.2.2 [str "Hel", str "lo there. How are", str " you?"]
      (str "Hello there.") (by decide)⟩

/-- C7: confidence resolution returns the decision's hint (stripped,
lowercased) whenever it is one of low/medium/high, and otherwise maps the
stream's word count through the thresholds `<25 → low`, `<60 → medium`,
else `high`; in particular 24→low, 25→medium, 59→medium, 60→high. -/
theorem claim_C7_confidence :
    (∀ (h : Str) (wc : Nat),
      confidence_known (py_lower (py_strip h)) = true →
      resolve_confidence (some h) wc = py_lower (py_strip h)) ∧
    (∀ (h : Str) (wc : Nat),
      confidence_known (py_lower (py_strip h)) = false →
      resolve_confidence (some h) wc = estimate_confidence_from_words wc) ∧
    (∀ wc : Nat, resolve_confidence none wc = estimate_confidence_from_words wc) ∧
    (∀ wc : Nat, wc < 25 → estimate_confidence_from_words wc = str "low") ∧
    (∀ wc : Nat, 25 ≤ wc → wc < 60 →
      estimate_confidence_from_words wc = str "medium") ∧
    (∀ wc : Nat, 60 ≤ wc → estimate_confidence_from_words wc = str "high") ∧
    estimate_confidence_from_words 24 = str "low" ∧
    estimate_confidence_from_words 25 = str "medium" ∧
    estimate_confidence_from_words 59 = str "medium" ∧
    estimate_confidence_from_words 60 = str "high" := by
  refine ⟨?_, ?_, ?_, ?_, ?_, ?_, by decide, by decide, by decide, by decide⟩
  · intro h wc hk
    have hne : h ≠ [] := by
      intro hcon
      subst hcon
      exact absurd hk (by decide)
    change (if h ≠ [] ∧ confidence_known (py_lower (py_strip h)) = true then
        py_lower (py_strip h) else estimate_confidence_from_words wc) = _
    rw [if_pos ⟨hne, hk⟩]
  · intro h wc hk
    change (if h ≠ [] ∧ confidence_known (py_lower (py_strip h)) = true then
        py_lower (py_strip h) else estimate_confidence_from_words wc) = _
    rw [if_neg (by simp [hk])]
  · intro wc; rfl
  · intro wc hwc
    unfold estimate_confidence_from_words
    rw [if_pos hwc]
  · intro wc h1 h2
    unfold estimate_confidence_from_words
    rw [if_neg (by omega), if_pos h2]
  · intro wc h1
    unfold estimate_confidence_from_words
    rw [if_neg (by omega), if_neg (by omega)]

/-- Witness for C7 at concrete inputs. -/
theorem claim_C7_confidence_witness :
    resolve_confidence (some (str " HIGH ")) 3 = str "high" ∧
    resolve_confidence (some (str "unsure")) 24 = str "low" ∧
    estimate_confidence_from_words 59 = str "medium" :=
  ⟨(claim_C7_confidence.1 (str " HIGH ") 3 (by decide)).trans (by decide),
    (claim_C7_confidence.2.1 (str "unsure") 24 (by decide)).trans
      (claim_C7_confidence.2.2.2.1 24 (by decide)),
    claim_C7_confidence.2.2.2.2.2.2.2.2.1⟩

/-- C4 counterexample: saving `"Hello!"` and then `"hello"` — two questions
with the same normalized form — leaves two records in the store, so
`save_record` does not upsert by the normalized key and the store can hold
more than one record per normalized key. -/
theorem claim_C4_upsert_counterexample :
    normalize_text (str "Hello!") = normalize_text (str "hello") ∧
    mem_hello.records.map Prod.fst = [str "Hello!", str "hello"] ∧
    mem_hello.records.length = 2 ∧
    (mem_hello.records.map (fun p => normalize_text p.1)) =
      [str "hello", str "hello"] := by decide

/-- C4 amended: `save_record` upserts by the exact stripped question text —
after a save the record dict is the Python-dict insertion under that exact
key, the new record is retrievable under it (last write wins per exact
question), key uniqueness of the dict is preserved, and an entry that
normalizes away (blank question) is dropped without mutation. -/
theorem claim_C4_upsert_amended :
    (∀ (m : TrialMemory) (e : Entry) (r : Record), normalize_record e = some r →
      (save_record m e).records = dict_insert r.question r m.records ∧
      dict_get (save_record m e).records r.question = some r ∧
      ((m.records.map Prod.fst).Nodup →
        ((save_record m e).records.map Prod.fst).Nodup)) ∧
    (∀ (m : TrialMemory) (e : Entry), normalize_record e = none →
      save_record m e = m) := by
  constructor
  · intro m e r h
    unfold save_record
    rw [h]
    exact ⟨rfl, dict_get_insert_self _ _ _, fun hn => dict_insert_nodup _ _ _ hn⟩
  · intro m e h
    unfold save_record
    rw [h]

/-- The record that saving `{"question": "hello", "answer": "y"}` produces. -/
def rec_hello_y : Record :=
  { question := str "hello", answer := str "y", thinking_cues := [],
    decision := ⟨none, none, none, none, none⟩, final_confidence := [] }

/-- Witness for the amended C4 at a concrete save. -/
theorem claim_C4_upsert_amended_witness :
    dict_get (save_record empty_memory (mk_entry "hello" "y")).records
      (str "hello") = some rec_hello_y :=
  (claim_C4_upsert_amended.1 empty_memory (mk_entry "hello" "y") rec_hello_y
    (by decide)).2.1

set_option maxRecDepth 20000 in
/-- C8: fuzzy lookup scores the normalized input against every stored
normalized key, keeps the maximum with ties broken by the first occurrence
in stored order, and accepts exactly when the maximum reaches the threshold
(default 3/5): soundness and completeness of `_best_fuzzy_match`, a pair at
ratio exactly 0.6 that matches through `get`, and a pair at ratio exactly
0.59 that misses. -/
theorem claim_C8_fuzzy :
    (∀ (m : TrialMemory) (nq q : Str) (s : Frac),
      best_fuzzy_match m nq = some (q, s) →
      frac_le m.match_threshold s ∧
        ∃ pre nc post, m.norm_index = pre ++ (nc, q) :: post ∧
          s = similarity_score nq nc ∧
          (∀ e ∈ pre, frac_lt (similarity_score nq e.1) s) ∧
          (∀ e ∈ post, frac_le (similarity_score nq e.1) s)) ∧
    (∀ (m : TrialMemory) (nq : Str) (e : Str × Str), e ∈ m.norm_index →
      0 < m.match_threshold.num →
      frac_le m.match_threshold (similarity_score nq e.1) →
      ∃ r, best_fuzzy_match m nq = some r) ∧
    (similarity_score (str "tell m") (str "tell me a joke") = ⟨12, 20⟩ ∧
      frac_le (⟨3, 5⟩ : Frac) ⟨12, 20⟩ ∧
      mem_joke.match_threshold = ⟨3, 5⟩ ∧
      best_fuzzy_match mem_joke (str "tell m") =
        some (str "tell me a joke", ⟨12, 20⟩) ∧
      (mem_joke.get (str "tell m")).map Record.answer = some (str "haha")) ∧
    (similarity_score a059 b059 = ⟨118, 200⟩ ∧
      ¬ frac_le (⟨3, 5⟩ : Frac) ⟨118, 200⟩ ∧
      mem059.match_threshold = ⟨3, 5⟩ ∧
      best_fuzzy_match mem059 a059 = none) := by
  refine ⟨?_, ?_, by decide, by decide⟩
  · intro m nq q s h
    obtain ⟨hθ, _, hsplit⟩ := best_fuzzy_sound h
    exact ⟨hθ, hsplit⟩
  · intro m nq e he hpos hθ
    exact best_fuzzy_complete he hpos hθ

/-- Witness for C8's general parts at the concrete 0.6 store. -/
theorem claim_C8_fuzzy_witness :
    (frac_le mem_joke.match_threshold ⟨12, 20⟩ ∧
      ∃ pre nc post, mem_joke.norm_index = pre ++ (nc, str "tell me a joke") :: post ∧
        (⟨12, 20⟩ : Frac) = similarity_score (str "tell m") nc ∧
        (∀ e ∈ pre, frac_lt (similarity_score (str "tell m") e.1) ⟨12, 20⟩) ∧
        (∀ e ∈ post, frac_le (similarity_score (str "tell m") e.1) ⟨12, 20⟩)) ∧
    (∃ r, best_fuzzy_match mem_joke (str "tell m") = some r) :=
  ⟨claim_C8_fuzzy.1 mem_joke (str "tell m") (str "tell me a joke") ⟨12, 20⟩
      (by decide),
    claim_C8_fuzzy.2.1 mem_joke (str "tell m")
      (str "tell me a joke", str "tell me a joke") (by decide) (by decide)
      (by decide)⟩

/-- C9 counterexample: the alias index resolves into the list of loaded
question occurrences (`_ordered_questions`), not into the list of distinct
stored questions — with the store file `[A, A, B]`, `q2` returns A's
(latest) record although the distinct list's second entry is `B`. -/
theorem claim_C9_alias_counterexample :
    mem_dup.ordered_questions = [str "A", str "A", str "B"] ∧
    spec_distinct_stored_questions mem_dup = [str "A", str "B"] ∧
    (spec_distinct_stored_questions mem_dup)[1]? = some (str "B") ∧
    (mem_dup.get (str "q2")).map Record.question = some (str "A") ∧
    (mem_dup.get (str "q2")).map Record.answer = some (str "2") ∧
    (mem_dup.get (str "q2")).map Record.question ≠ some (str "B") := by decide

/-- C9 amended: an input matching `q|question` + optional space and
zero-padding + digits (case-insensitive, as a prefix) is resolved as a
1-based index into the insertion-ordered list of loaded question
occurrences (which coincides with the distinct list when the store file has
no duplicate questions); out-of-range indices miss; the alias stage has
first priority in `get`; with stored questions `[A, B, C]`, `question2` and
`q02` return B's record. -/
theorem claim_C9_alias_amended :
    (∀ (m : TrialMemory) (text q : Str), resolve_index_alias m text = some q →
      ∃ i, alias_index (py_strip (py_lower text)) = some i ∧ 1 ≤ i ∧
        i ≤ m.ordered_questions.length ∧ m.ordered_questions[i - 1]? = some q) ∧
    (∀ (m : TrialMemory) (text : Str) (i : Nat),
      alias_index (py_strip (py_lower text)) = some i →
      (i = 0 ∨ m.ordered_questions.length < i) →
      resolve_index_alias m text = none) ∧
    (∀ (m : TrialMemory) (question aq : Str) (r : Record),
      py_strip question ≠ [] →
      resolve_index_alias m (py_strip question) = some aq →
      dict_get m.records aq = some r →
      m.get question = some r) ∧
    ((mem_abc.get (str "question2")).map Record.answer = some (str "2") ∧
      (mem_abc.get (str "q02")).map Record.answer = some (str "2") ∧
      (mem_abc.get (str "Question 2")).map Record.answer = some (str "2") ∧
      mem_abc.get (str "q4") = none ∧
      alias_index (str "q02") = some 2 ∧
      alias_index (str "question2") = some 2 ∧
      alias_index (str "quest2") = none) := by
  refine ⟨?_, ?_, ?_, by decide⟩
  · intro m text q h
    unfold resolve_index_alias at h
    rcases hai : alias_index (py_strip (py_lower text)) with _ | i <;> rw [hai] at h
    · simp at h
    · dsimp only at h
      by_cases hb : i = 0 ∨ m.ordered_questions.length < i
      · rw [if_pos hb] at h; simp at h
      · rw [if_neg hb] at h
        push_neg at hb
        exact ⟨i, rfl, by omega, by omega, h⟩
  · intro m text i hai hb
    unfold resolve_index_alias
    rw [hai]
    dsimp only
    rw [if_pos hb]
  · intro m question aq r h0 h1 h2
    exact get_alias_first h0 h1 h2

/-- The record stored under question `B` in the `[A, B, C]` store. -/
def rec_b : Record :=
  { question := str "B", answer := str "2", thinking_cues := [],
    decision := ⟨none, none, none, none, none⟩, final_confidence := [] }

/-- Witness for the amended C9 at concrete lookups. -/
theorem claim_C9_alias_amended_witness :
    (∃ i, alias_index (py_strip (py_lower (str "q02"))) = some i ∧ 1 ≤ i ∧
      i ≤ mem_abc.ordered_questions.length ∧
      mem_abc.ordered_questions[i - 1]? = some (str "B")) ∧
    resolve_index_alias mem_abc (str "q9") = none ∧
    mem_abc.get (str "q02") = some rec_b :=
  ⟨claim_C9_alias_amended.1 mem_abc (str "q02") (str "B") (by decide),
    claim_C9_alias_amended.2.1 mem_abc (str "q9") 9 (by decide)
      (Or.inr (by decide)),
    claim_C9_alias_amended.2.2.1 mem_abc (str "q02") (str "B") rec_b
      (by decide) (by decide) (by decide)⟩

/-- C3 counterexample: a cache-miss run that completes the direct branch
leaves the trial memory untouched — no TrialRecord is persisted, because
`_persist_trial_record` is gated by the module constant
`PERSIST_TRIALS = False`. -/
theorem claim_C3_persist_counterexample :
    RunTrace inp_direct trace_direct ∧
    cached_of inp_direct = none ∧
    run_mode inp_direct = RunMode.direct ∧
    run_answer_text inp_direct ≠ [] ∧
    run_final_memory inp_direct = inp_direct.memory ∧
    (run_final_memory inp_direct).records = [] :=
  ⟨run_trace_direct, by decide, rfl, by decide, rfl, by decide⟩

/-- C3 amended: `_persist_trial_record` is a no-op in this build —
`PERSIST_TRIALS` is `False`, so every save is skipped and every completed
run (with or without thinking) returns with the trial memory it started
with; the record capturing question, answer, cues, decision and confidence
would be saved only with the gate enabled. -/
theorem claim_C3_persist_amended :
    PERSIST_TRIALS = false ∧
    (∀ (inp : RunInputs) (cues : List Str) (d : Decision) (m : TrialMemory),
      persist_trial_record inp cues d m = m) ∧
    (∀ (inp : RunInputs) (t : List Event), RunTrace inp t →
      run_final_memory inp = inp.memory) := by
  have hp : ∀ (inp : RunInputs) (cues : List Str) (d : Decision)
      (m : TrialMemory), persist_trial_record inp cues d m = m := by
    intro inp cues d m
    unfold persist_trial_record
    rw [if_pos (by simp [PERSIST_TRIALS])]
  refine ⟨rfl, hp, ?_⟩
  intro inp t _
  unfold run_final_memory
  rcases hc : cached_of inp with _ | record
  · dsimp only
    rcases hd : inp.decide_result with e | d
    · rfl
    · dsimp only
      by_cases hnt : d.need_thinking.getD false = true <;> simp [hnt, hp]
  · rfl

/-- Witness for the amended C3 at a completed concrete run. -/
theorem claim_C3_persist_amended_witness :
    run_final_memory inp_direct = inp_direct.memory :=
  claim_C3_persist_amended.2.2 inp_direct trace_direct run_trace_direct

/-- C5: on a cache miss, when the decision response's content fails the JSON
parse step (including the markdown-fence peeling the code applies first),
the run aborts as a decision-parse failure with an empty trace — no speak
dispatch is ever made and nothing is persisted. -/
theorem claim_C5_parse_error :
    ∀ (loads : Str → Option Decision) (content : Str) (inp : RunInputs)
      (t : List Event),
      parse_json loads content = none →
      inp.decide_result = decide_outcome loads content →
      cached_of inp = none →
      RunTrace inp t →
      t = [] ∧ count_speaks t = 0 ∧ run_mode inp = RunMode.parseFailed ∧
        run_final_memory inp = inp.memory := by
  intro loads content inp t hparse hdec hcache htr
  have herr : inp.decide_result = Except.error () := by
    rw [hdec]
    unfold decide_outcome
    rw [hparse]
  unfold RunTrace at htr
  rw [hcache] at htr
  dsimp only at htr
  rw [herr] at htr
  dsimp only at htr
  subst htr
  refine ⟨rfl, rfl, ?_, ?_⟩
  · unfold run_mode
    rw [hcache]
    dsimp only
    rw [herr]
  · unfold run_final_memory
    rw [hcache]
    dsimp only
    rw [herr]

/-- Witness for C5: a concrete non-JSON response aborts a concrete run. -/
theorem claim_C5_parse_error_witness :
    ([] : List Event) = [] ∧ count_speaks [] = 0 ∧
      run_mode inp_parse = RunMode.parseFailed ∧
      run_final_memory inp_parse = inp_parse.memory :=
  claim_C5_parse_error (fun _ => none) (str "not json") inp_parse []
    rfl rfl (by decide) run_trace_parse

/-- C2: in every run trace, any answer-relay speak dispatch happens strictly
after the thinking-phase-closed signal — the answer task waits on the
completion barrier at its first clause, so its single combined dispatch is
at or after the barrier set even when answer generation finishes before the
thinking phase. -/
theorem claim_C2_barrier_order :
    ∀ (inp : RunInputs) (t : List Event) (i : Nat) (txt : Str),
      RunTrace inp t →
      t[i]? = some (Event.speak SpeakSource.answerRelay txt) →
      ∃ j, j < i ∧ t[j]? = some Event.barrierSet := by
  intro inp t i txt htr hi
  have hmem : Event.speak SpeakSource.answerRelay txt ∈ t := List.getElem?_mem hi
  unfold RunTrace at htr
  rcases hc : cached_of inp with _ | record
  case some =>
    rw [hc] at htr
    dsimp only at htr
    subst htr
    obtain ⟨hsrc, -, -⟩ := speak_mem_replay_events hmem
    exact absurd hsrc (by simp)
  case none =>
  rw [hc] at htr
  dsimp only at htr
  rcases hd : inp.decide_result with e | d
  case error =>
    rw [hd] at htr
    dsimp only at htr
    subst htr
    simp at hi
  case ok =>
  rw [hd] at htr
  dsimp only at htr
  by_cases hnt : d.need_thinking.getD false = true
  case neg =>
    rw [if_neg hnt] at htr
    subst htr
    rcases List.mem_cons.mp hmem with hhd | htl
    · simp at hhd
    · obtain ⟨hsrc, -, -⟩ := speak_mem_direct_events htl
      exact absurd hsrc (by simp)
  case pos =>
  rw [if_pos hnt] at htr
  obtain ⟨hI, hok⟩ := htr
  have hip : (t.take (i + 1))[i]? =
      some (Event.speak SpeakSource.answerRelay txt) := by
    rw [getElem?_take_of_lt t (Nat.lt_succ_self i)]
    exact hi
  have hpmem : Event.speak SpeakSource.answerRelay txt ∈ t.take (i + 1) :=
    List.getElem?_mem hip
  obtain ⟨a, b, hIab⟩ := interleave_take hI (i + 1)
  have hperm := interleave_perm hIab
  rcases List.mem_append.mp (hperm.mem_iff.mp hpmem) with hL | hR
  · exact absurd ((List.take_sublist a _).mem hL)
      (thinking_task_no_speak inp d _ _)
  · have hans_ne : inp.answer_clauses ≠ [] := by
      intro hcl
      rw [hcl] at hR
      simp [relay_answer_events] at hR
    obtain ⟨c, cs, hcl⟩ := List.exists_cons_of_ne_nil hans_ne
    have hhead : relay_answer_events inp.answer_clauses inp.furhat =
        Event.barrierWait ::
          (if inp.furhat then
            [Event.speak .answerRelay (relay_answer_text inp.answer_clauses)]
          else []) := by
      rw [relay_answer_events, if_neg (by rw [hcl]; simp)]
    have hwmem : Event.barrierWait ∈
        (relay_answer_events inp.answer_clauses inp.furhat).take b := by
      match b, hR with
      | b + 1, _ =>
        rw [hhead]
        exact List.mem_cons_self _ _
    have hwt : Event.barrierWait ∈ t.take (i + 1) :=
      hperm.mem_iff.mpr (List.mem_append.mpr (Or.inr hwmem))
    obtain ⟨k, hk⟩ := List.getElem?_of_mem hwt
    have hklt : k < i + 1 := by
      have h1 : k < (t.take (i + 1)).length := (List.getElem?_eq_some.mp hk).1
      have h2 : (t.take (i + 1)).length ≤ i + 1 := by
        simp
      omega
    have hkt : t[k]? = some Event.barrierWait := by
      rw [← getElem?_take_of_lt t hklt]
      exact hk
    have hki : k ≠ i := by
      intro hkeq
      subst hkeq
      rw [hkt] at hi
      simp at hi
    rcases barrier_ok_wait hok hkt with hfalse | ⟨j, hj, hjs⟩
    · exact absurd hfalse (by simp)
    · exact ⟨j, by omega, hjs⟩

/-- Witness for C2: in the sequential trace of the concrete thinking run,
the speak at index 2 is preceded by the barrier set. -/
theorem claim_C2_barrier_order_witness :
    ∃ j, j < 2 ∧ (trace_think [str "Hi."])[j]? = some Event.barrierSet :=
  claim_C2_barrier_order (inp_think [str "Hi."]) (trace_think [str "Hi."]) 2
    (relay_answer_text [str "Hi."]) run_trace_think_hi (by decide)

/-- C1 counterexample: a completed thinking-enabled run whose answer stream
yields no clauses dispatches no speak at all (the `if full_answer_parts:`
guard), refuting "exactly one `speak()` dispatch per completed run". -/
theorem claim_C1_single_speak_counterexample :
    RunTrace (inp_think []) (trace_think []) ∧
    run_mode (inp_think []) = RunMode.thinking ∧
    (inp_think []).furhat = true ∧
    count_speaks (trace_think []) = 0 :=
  ⟨run_trace_think_empty, rfl, rfl, by decide⟩

/-- C1 amended: with a Furhat client connected, every completed run makes at
most one speak dispatch — exactly one for direct and replayed runs, exactly
one combined dispatch for a thinking-enabled run whose answer stream yields
at least one clause, and none when the stream yields no clause (a
parse-failed run also dispatches nothing). -/
theorem claim_C1_single_speak_amended :
    ∀ (inp : RunInputs) (t : List Event), RunTrace inp t → inp.furhat = true →
      count_speaks t =
        (match run_mode inp with
          | RunMode.parseFailed => 0
          | RunMode.thinking => if inp.answer_clauses = [] then 0 else 1
          | _ => 1) := by
  intro inp t htr hf
  unfold RunTrace at htr
  unfold run_mode
  rcases hc : cached_of inp with _ | record
  case some =>
    rw [hc] at htr
    dsimp only at htr ⊢
    subst htr
    rw [count_speaks_replay_events, hf]
    rfl
  case none =>
  rw [hc] at htr
  dsimp only at htr ⊢
  rcases hd : inp.decide_result with e | d
  case error =>
    rw [hd] at htr
    dsimp only at htr ⊢
    subst htr
    rfl
  case ok =>
  rw [hd] at htr
  dsimp only at htr ⊢
  by_cases hnt : d.need_thinking.getD false = true
  case neg =>
    rw [if_neg hnt] at htr
    rw [if_neg hnt]
    dsimp only
    subst htr
    unfold count_speaks
    rw [List.countP_cons]
    have h1 := count_speaks_direct_events d inp.delay_pos inp.furhat
    unfold count_speaks at h1
    rw [h1, hf]
    rfl
  case pos =>
    rw [if_pos hnt] at htr
    rw [if_pos hnt]
    dsimp only
    obtain ⟨hI, -⟩ := htr
    have hperm := interleave_perm hI
    unfold count_speaks
    rw [hperm.countP_eq, List.countP_append]
    have h1 := count_speaks_thinking_task inp d
    unfold count_speaks at h1
    have h2 := count_speaks_answer_events inp.answer_clauses inp.furhat
    unfold count_speaks at h2
    rw [h1, h2, hf]
    by_cases hcl : inp.answer_clauses = [] <;> simp [hcl]

/-- Witness for the amended C1: the direct fixture dispatches exactly one
speak. -/
theorem claim_C1_single_speak_amended_witness :
    count_speaks trace_direct =
      (match run_mode inp_direct with
        | RunMode.parseFailed => 0
        | RunMode.thinking => if inp_direct.answer_clauses = [] then 0 else 1
        | _ => 1) ∧
    count_speaks trace_direct = 1 :=
  ⟨claim_C1_single_speak_amended inp_direct trace_direct run_trace_direct rfl,
    by decide⟩

/-- C10: every non-replay answer dispatch speaks the assembled answer
followed by the fixed follow-up line "Do you have another question?", while
a replayed cached run speaks the stored answer verbatim (it is already
stripped in every loaded record) with no follow-up appended. -/
theorem claim_C10_followup :
    FOLLOW_UP_TAIL = str "Do you have another question?" ∧
    (∀ a : Str, append_follow_up a none =
      py_strip (a ++ ' ' :: str "Do you have another question?")) ∧
    (∀ (inp : RunInputs) (t : List Event) (src : SpeakSource) (txt : Str),
      RunTrace inp t → Event.speak src txt ∈ t →
      (src = SpeakSource.answerRelay →
        txt = append_follow_up (py_strip (join_sp inp.answer_clauses)) none) ∧
      (src = SpeakSource.direct →
        ∃ d, inp.decide_result = Except.ok d ∧
          txt = append_follow_up (py_strip (direct_answer d)) none) ∧
      (src = SpeakSource.replay →
        ∃ record, cached_of inp = some record ∧
          txt = py_strip record.answer)) ∧
    (∀ (entries : List Entry) (q : Str) (r : Record),
      (load_list entries).get q = some r → py_strip r.answer = r.answer) := by
  refine ⟨rfl, fun a => rfl, ?_, ?_⟩
  · intro inp t src txt htr hmem
    unfold RunTrace at htr
    rcases hc : cached_of inp with _ | record
    case some =>
      rw [hc] at htr
      dsimp only at htr
      subst htr
      obtain ⟨hsrc, htxt, -⟩ := speak_mem_replay_events hmem
      subst hsrc
      exact ⟨fun h => by simp at h, fun h => by simp at h,
        fun _ => ⟨record, rfl, htxt⟩⟩
    case none =>
    rw [hc] at htr
    dsimp only at htr
    rcases hd : inp.decide_result with e | d
    case error =>
      rw [hd] at htr
      dsimp only at htr
      subst htr
      simp at hmem
    case ok =>
    rw [hd] at htr
    dsimp only at htr
    by_cases hnt : d.need_thinking.getD false = true
    case neg =>
      rw [if_neg hnt] at htr
      subst htr
      rcases List.mem_cons.mp hmem with hhd | htl
      · simp at hhd
      · obtain ⟨hsrc, htxt, -⟩ := speak_mem_direct_events htl
        subst hsrc
        exact ⟨fun h => by simp at h,
          fun _ => ⟨d, rfl, htxt⟩, fun h => by simp at h⟩
    case pos =>
      rw [if_pos hnt] at htr
      obtain ⟨hI, -⟩ := htr
      have hperm := interleave_perm hI
      rcases List.mem_append.mp (hperm.mem_iff.mp hmem) with hL | hR
      · exact absurd hL (thinking_task_no_speak inp d _ _)
      · obtain ⟨hsrc, htxt, -, -⟩ := speak_mem_answer_events hR
        subst hsrc
        exact ⟨fun _ => htxt, fun h => by simp at h, fun h => by simp at h⟩
  · intro entries q r h
    obtain ⟨k, hk⟩ := get_from_records h
    obtain ⟨x, hx⟩ := load_list_answer_stripped entries (k, r) hk
    rw [hx, py_strip_idem]

/-- Witness for C10 at the concrete direct run and a concrete load. -/
theorem claim_C10_followup_witness :
    (∃ d, inp_direct.decide_result = Except.ok d ∧
      direct_text decision_direct =
        append_follow_up (py_strip (direct_answer d)) none) ∧
    py_strip rec_b.answer = rec_b.answer :=
  ⟨(claim_C10_followup.2.2.1 inp_direct trace_direct SpeakSource.direct
      (direct_text decision_direct) run_trace_direct (by decide)).2.1 rfl,
    claim_C10_followup.2.2.2
      [mk_entry "A" "1", mk_entry "B" "2", mk_entry "C" "3"]
      (str "B") rec_b (by decide)⟩

end SocialRobotics
